import Mathlib

/-!
Verification of the table-compression core of `scripts/unicode.py`
(the `unicode-width` table generator).

The Python source is shallowly embedded below:
* a Python `set` of `(codepoint, width)` pairs becomes a duplicate-free
  `List Entry` maintained through `entryInsert` / `entryUnion`;
* in-place mutation of `Bucket` objects becomes explicit state passing:
  `Bucket.try_extend` returns the updated receiver and the (untouched)
  argument next to the Python boolean result;
* the `assert` statements and the `TypeError` raised by
  `int(None)` in `indices_to_widths`, as well as the `IndexError` reachable
  in `byte_array`, are modelled with `Option`: `none` is an aborted run.
-/

/-- A codepoint/width pair, as stored in `Bucket.entry_set`
    (`Codepoint = int`; widths are the integer values of `EffectiveWidth`). -/
abbrev Entry := Nat × Nat

/-- `NUM_CODEPOINTS = 0x110000` from the source. -/
def NUM_CODEPOINTS : Nat := 0x110000

/-- `MAX_CODEPOINT_BITS = math.ceil(math.log2(NUM_CODEPOINTS - 1))`:
    the number of bits needed for a codepoint, which evaluates to 21. -/
def MAX_CODEPOINT_BITS : Nat := 21

/-- `TABLE_CFGS` from the source; an `OffsetType` is identified with its
    bit count (`U8 = 8`, `U2 = 2`), exactly as `int(offset_type)` does. -/
def TABLE_CFGS : List (Nat × Nat × Nat) :=
  [(13, MAX_CODEPOINT_BITS, 8), (6, 13, 8), (0, 6, 2)]

/-- Python `set.add`: append an element unless already present. -/
def entryInsert (s : List Entry) (e : Entry) : List Entry :=
  if e ∈ s then s else s ++ [e]

/-- Python `set.__ior__` (`self.entry_set |= other.entry_set`). -/
def entryUnion (s t : List Entry) : List Entry :=
  t.foldl entryInsert s

/-- The `Bucket` class: a set of member entries plus the positional
    width sequence used for the dedup prefix test. -/
structure Bucket where
  entry_set : List Entry
  widths : List Nat
deriving DecidableEq, Repr

/-- `Bucket.__init__`. -/
def Bucket.empty : Bucket := ⟨[], []⟩

/-- `Bucket.append`: add the pair to the entry set and push the width. -/
def Bucket.append (b : Bucket) (codepoint width : Nat) : Bucket :=
  { entry_set := entryInsert b.entry_set (codepoint, width),
    widths := b.widths ++ [width] }

/-- `Bucket.try_extend`.  The Python method mutates `self` and returns a
    `bool`; here the possibly-updated `self` and the argument `other` are
    returned alongside the boolean, so that the state of both objects
    after the call is explicit. -/
def Bucket.try_extend (self other : Bucket) : Bool × Bucket × Bucket :=
  let sw := self.widths
  let ow := other.widths
  let less := if sw.length ≤ ow.length then sw else ow
  let more := if sw.length ≤ ow.length then ow else sw
  if less = more.take less.length then
    (true, { entry_set := entryUnion self.entry_set other.entry_set, widths := more }, other)
  else
    (false, self, other)

/-- Ordering used by Python's `list.sort` on pairs (lexicographic). -/
def entryLE (a b : Entry) : Bool :=
  decide (a.1 < b.1) || (decide (a.1 = b.1) && decide (a.2 ≤ b.2))

/-- Insert into a sorted list (helper for `Bucket.entries`). -/
def insSorted (e : Entry) : List Entry → List Entry
  | [] => [e]
  | x :: xs => if entryLE e x then e :: x :: xs else x :: insSorted e xs

/-- Insertion sort by `entryLE` (the sort performed by `list.sort`). -/
def sortEntries (l : List Entry) : List Entry := l.foldr insSorted []

/-- `Bucket.entries`: the sorted list of the codepoint/width pairs. -/
def Bucket.entries (b : Bucket) : List Entry := sortEntries b.entry_set

/-- `Bucket.width`: the common width of the bucket's width sequence, or
    `none` (`None`) when the sequence is empty or not constant. -/
def Bucket.width (b : Bucket) : Option Nat :=
  match b.widths with
  | [] => none
  | w :: rest => if rest.all (fun x => decide (x = w)) then some w else none

/-- In-place update of one list slot (`buckets[key].append(...)`). -/
def listModify : List α → Nat → (α → α) → List α
  | [], _, _ => []
  | x :: xs, 0, f => f x :: xs
  | x :: xs, i + 1, f => x :: listModify xs i f

/-- One iteration of the `make_buckets` loop:
    `buckets[(codepoint >> low_bit) & mask].append(codepoint, width)`,
    where `mask = (1 << num_bits) - 1`. -/
def mbStep (low_bit num_bits : Nat) (buckets : List Bucket) (e : Entry) : List Bucket :=
  listModify buckets ((e.1 >>> low_bit) &&& ((1 <<< num_bits) - 1))
    (fun b => b.append e.1 e.2)

/-- `make_buckets`: partition `entries` into `2 ** num_bits` buckets keyed
    by bits `low_bit..low_bit+num_bits` of the codepoint. -/
def make_buckets (entries : List Entry) (low_bit num_bits : Nat) : List Bucket :=
  entries.foldl (mbStep low_bit num_bits) (List.replicate (2 ^ num_bits) Bucket.empty)

/-- Scan `indexed` for the first bucket that `try_extend` succeeds on;
    return its position and the updated list, or `none` if every attempt
    fails.  This is the inner `for i in range(0, len(indexed))` loop shared
    by `index_buckets` and `Table.__init__`. -/
def extendFirst : List Bucket → Bucket → Option (Nat × List Bucket)
  | [], _ => none
  | x :: xs, b =>
    match Bucket.try_extend x b with
    | (true, self', _) => some (0, self' :: xs)
    | (false, _, other') =>
      match extendFirst xs other' with
      | some (i, xs') => some (i + 1, x :: xs')
      | none => none

/-- One iteration of the dedup loop: place one raw bucket. -/
def dedupStep (acc : List Nat × List Bucket) (b : Bucket) : List Nat × List Bucket :=
  match extendFirst acc.2 b with
  | some (i, indexed') => (acc.1 ++ [i], indexed')
  | none => (acc.1 ++ [acc.2.length], acc.2 ++ [b])

/-- `index_buckets`: first-fit dedup over a raw bucket list, returning one
    index per raw bucket and the retained bucket list. -/
def index_buckets (buckets : List Bucket) : List Nat × List Bucket :=
  buckets.foldl dedupStep ([], [])

/-- The `Table` class fields after `__init__` (before `indices_to_widths`). -/
structure Table where
  low_bit : Nat
  num_bits : Nat
  offset_type : Nat
  indices : List Nat
  indexed : List Bucket
deriving DecidableEq, Repr

/-- The raw bucket list built at the start of `Table.__init__`
    (`buckets.extend(make_buckets(...))` over the entry groups). -/
def mkRawBuckets (entry_groups : List (List Entry)) (low_bit num_bits : Nat) : List Bucket :=
  entry_groups.foldl (fun acc es => acc ++ make_buckets es low_bit num_bits) []

/-- `Table.__init__`: build the raw buckets, dedup, then validate the
    offset type (`assert index < (1 << int(self.offset_type))`); an
    assertion failure aborts the run (`none`). -/
def Table.init (entry_groups : List (List Entry)) (low_bit cap_bit offset_type : Nat) :
    Option Table :=
  let nb := cap_bit - low_bit
  let ib := index_buckets (mkRawBuckets entry_groups low_bit nb)
  if ib.1.all (fun i => decide (i < 2 ^ offset_type)) then
    some ⟨low_bit, nb, offset_type, ib.1, ib.2⟩
  else
    none

/-- Map a fallible function over a list, aborting the whole run on the
    first failure (a raised exception inside Python's `map`). -/
def mapOrAbort (f : α → Option β) : List α → Option (List β)
  | [] => some []
  | x :: xs =>
    match f x with
    | none => none
    | some y =>
      match mapOrAbort f xs with
      | none => none
      | some ys => some (y :: ys)

/-- `Table.indices_to_widths`: replace each index by the width of its
    bucket; `int(None)` on a non-homogeneous bucket raises, i.e. `none`. -/
def Table.indices_to_widths (t : Table) : Option (List Nat) :=
  mapOrAbort (fun i => (t.indexed.get? i).bind Bucket.width) t.indices

/-- The inner loop of `Table.byte_array`:
    `byte |= self.indices[i+j] << (j*int(self.offset_type))` for
    `j in range(indices_per_byte)`; an out-of-range read is an
    `IndexError` (`none`). -/
def packByteLoop (ot : Nat) (indices : List Nat) (i : Nat) :
    Nat → Nat → Nat → Option Nat
  | byte, _, 0 => some byte
  | byte, j, rem + 1 =>
    match indices.get? (i + j) with
    | none => none
    | some v => packByteLoop ot indices i (byte ||| (v <<< (j * ot))) (j + 1) rem

/-- The outer loop of `Table.byte_array` over `range(0, len, ipb)`,
    driven by the number of chunks still to emit. -/
def packBytesFrom (ot ipb : Nat) (indices : List Nat) : Nat → Nat → Option (List Nat)
  | 0, _ => some []
  | cnt + 1, i =>
    match packByteLoop ot indices i 0 0 ipb with
    | none => none
    | some byte =>
      match packBytesFrom ot ipb indices cnt (i + ipb) with
      | none => none
      | some rest => some (byte :: rest)

/-- `Table.byte_array`: pack `8 // offset_type` indices per byte,
    least-significant group first. -/
def Table.byte_array (t : Table) : Option (List Nat) :=
  let ipb := 8 / t.offset_type
  packBytesFrom t.offset_type ipb t.indices ((t.indices.length + ipb - 1) / ipb) 0

/-- The loop of `make_tables`, threading the entry groups forward
    (`entry_groups = map(lambda bucket: bucket.entries(), table.buckets())`). -/
def make_tablesAux : List (Nat × Nat × Nat) → List (List Entry) → Option (List Table)
  | [], _ => some []
  | (low_bit, cap_bit, offset_type) :: rest, entry_groups =>
    match Table.init entry_groups low_bit cap_bit offset_type with
    | none => none
    | some t =>
      match make_tablesAux rest (t.indexed.map Bucket.entries) with
      | none => none
      | some ts => some (t :: ts)

/-- `make_tables(table_cfgs, entries)`: start from the single group
    `[entries]`. -/
def make_tables (table_cfgs : List (Nat × Nat × Nat)) (entries : List Entry) :
    Option (List Table) :=
  make_tablesAux table_cfgs [entries]

/-- The cascade walk of the paired decoder (`lookup_width`): at each level
    the flat position is `group * 2 ^ num_bits` plus that level's bit-slice
    of the codepoint; the stored offset selects the next level's group; at
    the last level the reached bucket's width is the answer. -/
def decodeCascade : List Table → Nat → Nat → Option Nat
  | [], _, _ => none
  | [t], c, g =>
    match t.indices.get? (g * 2 ^ t.num_bits + ((c >>> t.low_bit) &&& (2 ^ t.num_bits - 1))) with
    | none => none
    | some i => (t.indexed.get? i).bind Bucket.width
  | t :: t' :: ts, c, g =>
    match t.indices.get? (g * 2 ^ t.num_bits + ((c >>> t.low_bit) &&& (2 ^ t.num_bits - 1))) with
    | none => none
    | some i => decodeCascade (t' :: ts) c i

/-- A configuration list covers bits `[0, b)` exactly once, from the most
    significant slice down: each level's cap is the previous level's low
    bit, and the last level reaches bit 0. -/
def chainCovers : List (Nat × Nat × Nat) → Nat → Prop
  | [], b => b = 0
  | (low_bit, cap_bit, _) :: rest, b => cap_bit = b ∧ low_bit < cap_bit ∧ chainCovers rest low_bit

/-- `l` is a prefix of `m` (Python `less == more[:len(less)]` succeeded). -/
def Pref (l m : List Nat) : Prop := ∃ t, l ++ t = m

/-- Two width sequences disagree at some common position; such buckets can
    never merge, now or after any further extension of either. -/
def Clash (xs ys : List Nat) : Prop :=
  ∃ p a b, xs.get? p = some a ∧ ys.get? p = some b ∧ a ≠ b

/-- Every entry's width is recorded in the width sequence; all buckets
    built by the pipeline satisfy this. -/
@[reducible] def BucketWF (b : Bucket) : Prop := ∀ e ∈ b.entry_set, e.2 ∈ b.widths

/-- Any two distinct buckets of the list clash on their width sequences
    (the dedup invariant for the retained list). -/
def PairwiseClash (l : List Bucket) : Prop :=
  ∀ i j bi bj, i ≠ j → l.get? i = some bi → l.get? j = some bj → Clash bi.widths bj.widths

/-! ### Basic facts about entry sets, prefixes and clashes -/

theorem mem_entryInsert {s : List Entry} {e x : Entry} :
    x ∈ entryInsert s e ↔ x ∈ s ∨ x = e := by
  unfold entryInsert
  split
  · rename_i h
    constructor
    · exact Or.inl
    · rintro (hx | rfl) <;> [exact hx; exact h]
  · simp [List.mem_append]

theorem mem_entryUnion {s t : List Entry} {x : Entry} :
    x ∈ entryUnion s t ↔ x ∈ s ∨ x ∈ t := by
  induction t generalizing s with
  | nil => simp [entryUnion]
  | cons y ys ih =>
    show x ∈ entryUnion (entryInsert s y) ys ↔ _
    rw [ih, mem_entryInsert]
    simp only [List.mem_cons]
    tauto

theorem pref_rfl {l : List Nat} : Pref l l := ⟨[], List.append_nil l⟩

theorem pref_append (l t : List Nat) : Pref l (l ++ t) := ⟨t, rfl⟩

theorem pref_trans {l m n : List Nat} (h1 : Pref l m) (h2 : Pref m n) : Pref l n := by
  obtain ⟨t1, rfl⟩ := h1
  obtain ⟨t2, rfl⟩ := h2
  exact ⟨t1 ++ t2, (List.append_assoc _ _ _).symm⟩

theorem pref_mem {l m : List Nat} {x : Nat} (h : Pref l m) (hx : x ∈ l) : x ∈ m := by
  obtain ⟨t, rfl⟩ := h
  exact List.mem_append_left t hx

theorem pref_get? {l m : List Nat} {p a : Nat} (h : Pref l m) (ha : l.get? p = some a) :
    m.get? p = some a := by
  obtain ⟨t, rfl⟩ := h
  have hp : p < l.length := by
    rcases List.get?_eq_some.mp ha with ⟨hlt, _⟩
    exact hlt
  rw [List.get?_append hp]
  exact ha

theorem pref_length {l m : List Nat} (h : Pref l m) : l.length ≤ m.length := by
  obtain ⟨t, rfl⟩ := h
  simp

theorem pref_antisymm {l m : List Nat} (h1 : Pref l m) (h2 : m.length ≤ l.length) : l = m := by
  obtain ⟨t, rfl⟩ := h1
  rw [List.length_append] at h2
  have ht : t = [] := List.length_eq_zero.mp (by omega)
  simp [ht]

theorem take_eq_iff_pref {l m : List Nat} : l = m.take l.length ↔ Pref l m := by
  constructor
  · intro h
    have h2 := List.take_append_drop l.length m
    rw [← h] at h2
    exact ⟨_, h2⟩
  · rintro ⟨t, rfl⟩
    rw [List.take_left]

theorem clash_symm {l m : List Nat} (h : Clash l m) : Clash m l := by
  obtain ⟨p, a, b, ha, hb, ne⟩ := h
  exact ⟨p, b, a, hb, ha, fun e => ne e.symm⟩

theorem clash_not_pref {l m : List Nat} (h : Clash l m) : ¬ Pref l m := by
  rintro hp
  obtain ⟨p, a, b, ha, hb, ne⟩ := h
  rw [pref_get? hp ha] at hb
  exact ne (Option.some.inj hb)

theorem clash_cons {x y : Nat} {xs ys : List Nat} (h : Clash xs ys) :
    Clash (x :: xs) (y :: ys) := by
  obtain ⟨p, a, b, ha, hb, ne⟩ := h
  exact ⟨p + 1, a, b, ha, hb, ne⟩

theorem pref_cons {x : Nat} {xs ys : List Nat} (h : Pref xs ys) :
    Pref (x :: xs) (x :: ys) := by
  obtain ⟨t, rfl⟩ := h
  exact ⟨t, rfl⟩

theorem pref_or_pref_or_clash : ∀ l m : List Nat, Pref l m ∨ Pref m l ∨ Clash l m := by
  intro l
  induction l with
  | nil => intro m; exact Or.inl ⟨m, rfl⟩
  | cons x xs ih =>
    intro m
    cases m with
    | nil => exact Or.inr (Or.inl ⟨x :: xs, rfl⟩)
    | cons y ys =>
      by_cases hxy : x = y
      · subst hxy
        rcases ih ys with h | h | h
        · exact Or.inl (pref_cons h)
        · exact Or.inr (Or.inl (pref_cons h))
        · exact Or.inr (Or.inr (clash_cons h))
      · exact Or.inr (Or.inr ⟨0, x, y, rfl, rfl, hxy⟩)

theorem clash_of_not_compat {l m : List Nat}
    (h : ¬ (Pref l m ∨ Pref m l)) : Clash l m := by
  rcases pref_or_pref_or_clash l m with h1 | h1 | h1
  · exact absurd (Or.inl h1) h
  · exact absurd (Or.inr h1) h
  · exact h1

theorem clash_pref_stable {x x' y y' : List Nat}
    (hx : Pref x x') (hy : Pref y y') (h : Clash x y) : Clash x' y' := by
  obtain ⟨p, a, b, ha, hb, ne⟩ := h
  exact ⟨p, a, b, pref_get? hx ha, pref_get? hy hb, ne⟩

/-! ### Characterization of `Bucket.try_extend` -/

theorem try_extend_eq (s o : Bucket) :
    Bucket.try_extend s o =
      if s.widths.length ≤ o.widths.length then
        (if s.widths = o.widths.take s.widths.length then
          (true, ⟨entryUnion s.entry_set o.entry_set, o.widths⟩, o)
        else (false, s, o))
      else
        (if o.widths = s.widths.take o.widths.length then
          (true, ⟨entryUnion s.entry_set o.entry_set, s.widths⟩, o)
        else (false, s, o)) := by
  unfold Bucket.try_extend
  by_cases hl : s.widths.length ≤ o.widths.length <;> simp [hl]

theorem try_extend_other (s o : Bucket) : (Bucket.try_extend s o).2.2 = o := by
  rw [try_extend_eq]
  split_ifs <;> rfl

theorem try_extend_true_iff (s o : Bucket) :
    (Bucket.try_extend s o).1 = true ↔ Pref s.widths o.widths ∨ Pref o.widths s.widths := by
  rw [try_extend_eq]
  split_ifs with hl hp hp
  · exact iff_of_true rfl (Or.inl (take_eq_iff_pref.mp hp))
  · refine iff_of_false (by simp) ?_
    rintro (h | h)
    · exact hp (take_eq_iff_pref.mpr h)
    · have : o.widths = s.widths := pref_antisymm h hl
      exact hp (take_eq_iff_pref.mpr (this ▸ pref_rfl))
  · exact iff_of_true rfl (Or.inr (take_eq_iff_pref.mp hp))
  · refine iff_of_false (by simp) ?_
    rintro (h | h)
    · have := pref_length h
      omega
    · exact hp (take_eq_iff_pref.mpr h)

theorem try_extend_false_iff (s o : Bucket) :
    (Bucket.try_extend s o).1 = false ↔ Clash s.widths o.widths := by
  rw [← Bool.not_eq_true, try_extend_true_iff]
  constructor
  · exact fun h => clash_of_not_compat h
  · rintro h (h1 | h1)
    · exact clash_not_pref h h1
    · exact clash_not_pref (clash_symm h) h1

theorem try_extend_success (s o : Bucket) (h : (Bucket.try_extend s o).1 = true) :
    (Bucket.try_extend s o).2.1.entry_set = entryUnion s.entry_set o.entry_set ∧
    (Bucket.try_extend s o).2.1.widths =
      (if s.widths.length ≤ o.widths.length then o.widths else s.widths) := by
  rw [try_extend_eq] at h ⊢
  split_ifs at h ⊢
  · exact ⟨rfl, rfl⟩
  · exact ⟨rfl, rfl⟩

theorem try_extend_false_self (s o : Bucket) (h : (Bucket.try_extend s o).1 = false) :
    (Bucket.try_extend s o).2.1 = s := by
  rw [try_extend_eq] at h ⊢
  split_ifs at h ⊢
  · rfl
  · rfl

theorem try_extend_self_pref (s o : Bucket) :
    Pref s.widths ((Bucket.try_extend s o).2.1).widths := by
  rcases hb : (Bucket.try_extend s o).1 with _ | _
  · rw [try_extend_false_self s o hb]
    exact pref_rfl
  · rw [(try_extend_success s o hb).2]
    split_ifs with hl
    · rw [try_extend_eq] at hb
      rw [if_pos hl] at hb
      split_ifs at hb with hp
      exact take_eq_iff_pref.mp hp
    · exact pref_rfl

theorem try_extend_success_other_pref (s o : Bucket) (h : (Bucket.try_extend s o).1 = true) :
    Pref o.widths ((Bucket.try_extend s o).2.1).widths := by
  rw [(try_extend_success s o h).2]
  split_ifs with hl
  · exact pref_rfl
  · rw [try_extend_eq] at h
    rw [if_neg hl] at h
    split_ifs at h with hp
    exact take_eq_iff_pref.mp hp

theorem try_extend_success_mem (s o : Bucket) (h : (Bucket.try_extend s o).1 = true) :
    ∀ e : Entry, e ∈ (Bucket.try_extend s o).2.1.entry_set ↔
      e ∈ s.entry_set ∨ e ∈ o.entry_set := by
  intro e
  rw [(try_extend_success s o h).1]
  exact mem_entryUnion

theorem try_extend_wf (s o : Bucket) (hs : BucketWF s) (ho : BucketWF o) :
    BucketWF (Bucket.try_extend s o).2.1 := by
  rcases hb : (Bucket.try_extend s o).1 with _ | _
  · rw [try_extend_false_self s o hb]
    exact hs
  · intro e he
    rcases (try_extend_success_mem s o hb e).mp he with h1 | h1
    · exact pref_mem (try_extend_self_pref s o) (hs e h1)
    · exact pref_mem (try_extend_success_other_pref s o hb) (ho e h1)

/-! ### The first-fit scan `extendFirst` -/

theorem extendFirst_cons_true {x : Bucket} {xs : List Bucket} {b : Bucket}
    (h : (Bucket.try_extend x b).1 = true) :
    extendFirst (x :: xs) b = some (0, (Bucket.try_extend x b).2.1 :: xs) := by
  unfold extendFirst
  rcases he : Bucket.try_extend x b with ⟨fst, s', o'⟩
  rw [he] at h
  simp only at h
  subst h
  simp [he]

theorem extendFirst_cons_false {x : Bucket} {xs : List Bucket} {b : Bucket}
    (h : (Bucket.try_extend x b).1 = false) :
    extendFirst (x :: xs) b =
      match extendFirst xs b with
      | some (i, xs') => some (i + 1, x :: xs')
      | none => none := by
  rcases he : Bucket.try_extend x b with ⟨fst, s', o'⟩
  have ho : o' = b := by
    have h2 := try_extend_other x b
    rw [he] at h2
    exact h2
  rw [he] at h
  simp only at h
  subst h
  subst ho
  simp only [extendFirst, he]

theorem extendFirst_none_iff (idx : List Bucket) (b : Bucket) :
    extendFirst idx b = none ↔ ∀ x ∈ idx, (Bucket.try_extend x b).1 = false := by
  induction idx with
  | nil => simp [extendFirst]
  | cons x xs ih =>
    rcases hb : (Bucket.try_extend x b).1 with _ | _
    · rw [extendFirst_cons_false hb]
      cases h2 : extendFirst xs b with
      | none =>
        refine iff_of_true rfl ?_
        intro y hy
        rcases List.mem_cons.mp hy with rfl | hy'
        · exact hb
        · exact (ih.mp h2) y hy'
      | some p =>
        rcases p with ⟨i, xs'⟩
        refine iff_of_false (by simp) ?_
        intro hall
        have : extendFirst xs b = none :=
          ih.mpr (fun y hy => hall y (List.mem_cons_of_mem x hy))
        rw [this] at h2
        exact Option.noConfusion h2
    · rw [extendFirst_cons_true hb]
      refine iff_of_false (by simp) ?_
      intro hall
      have := hall x (List.mem_cons_self x xs)
      rw [hb] at this
      exact Bool.noConfusion this

theorem extendFirst_some_char {idx : List Bucket} {b : Bucket} {i : Nat} {idx' : List Bucket}
    (h : extendFirst idx b = some (i, idx')) :
    ∃ x, idx.get? i = some x ∧ (Bucket.try_extend x b).1 = true ∧
      idx' = idx.set i (Bucket.try_extend x b).2.1 := by
  induction idx generalizing i idx' with
  | nil => exact Option.noConfusion h
  | cons x xs ih =>
    rcases hb : (Bucket.try_extend x b).1 with _ | _
    · rw [extendFirst_cons_false hb] at h
      cases h2 : extendFirst xs b with
      | none =>
        rw [h2] at h
        exact Option.noConfusion h
      | some p =>
        rcases p with ⟨i0, xs0⟩
        rw [h2] at h
        simp only [Option.some.injEq, Prod.mk.injEq] at h
        obtain ⟨rfl, rfl⟩ := h
        obtain ⟨y, hy1, hy2, hy3⟩ := ih h2
        exact ⟨y, hy1, hy2, by rw [hy3]; rfl⟩
    · rw [extendFirst_cons_true hb] at h
      simp only [Option.some.injEq, Prod.mk.injEq] at h
      obtain ⟨rfl, rfl⟩ := h
      exact ⟨x, rfl, hb, rfl⟩

theorem extendFirst_length {idx : List Bucket} {b : Bucket} {i : Nat} {idx' : List Bucket}
    (h : extendFirst idx b = some (i, idx')) :
    idx'.length = idx.length ∧ i < idx.length := by
  obtain ⟨x, hx1, _, hx3⟩ := extendFirst_some_char h
  constructor
  · rw [hx3, List.length_set]
  · rcases List.get?_eq_some.mp hx1 with ⟨hlt, _⟩
    exact hlt

theorem extendFirst_mono {idx : List Bucket} {b : Bucket} {i : Nat} {idx' : List Bucket}
    (h : extendFirst idx b = some (i, idx')) :
    ∀ j y, idx.get? j = some y →
      ∃ y', idx'.get? j = some y' ∧ Pref y.widths y'.widths ∧
        ∀ e ∈ y.entry_set, e ∈ y'.entry_set := by
  intro j y hy
  obtain ⟨x, hx1, hx2, hx3⟩ := extendFirst_some_char h
  by_cases hij : j = i
  · subst hij
    rw [hx1] at hy
    obtain rfl : x = y := Option.some.inj hy
    refine ⟨(Bucket.try_extend x b).2.1, ?_, try_extend_self_pref x b, ?_⟩
    · rw [hx3, List.get?_set_eq, hx1]
      rfl
    · intro e he
      exact (try_extend_success_mem x b hx2 e).mpr (Or.inl he)
  · refine ⟨y, ?_, pref_rfl, fun e he => he⟩
    rw [hx3, List.get?_set_ne _ idx (fun hh => hij hh.symm)]
    exact hy

theorem extendFirst_found {idx : List Bucket} {b : Bucket} {i : Nat} {idx' : List Bucket}
    (h : extendFirst idx b = some (i, idx')) :
    ∃ y', idx'.get? i = some y' ∧ (∀ e ∈ b.entry_set, e ∈ y'.entry_set) ∧
      Pref b.widths y'.widths := by
  obtain ⟨x, hx1, hx2, hx3⟩ := extendFirst_some_char h
  refine ⟨(Bucket.try_extend x b).2.1, ?_, ?_, try_extend_success_other_pref x b hx2⟩
  · rw [hx3, List.get?_set_eq, hx1]
    rfl
  · intro e he
    exact (try_extend_success_mem x b hx2 e).mpr (Or.inr he)

theorem extendFirst_wf {idx : List Bucket} {b : Bucket} {i : Nat} {idx' : List Bucket}
    (h : extendFirst idx b = some (i, idx'))
    (hidx : ∀ x ∈ idx, BucketWF x) (hb : BucketWF b) :
    ∀ y ∈ idx', BucketWF y := by
  intro y hy
  obtain ⟨x, hx1, _, hx3⟩ := extendFirst_some_char h
  rw [hx3] at hy
  rcases List.mem_or_eq_of_mem_set hy with hy' | rfl
  · exact hidx y hy'
  · exact try_extend_wf x b (hidx x (List.get?_mem hx1)) hb

/-! ### The dedup fold -/

theorem dedupStep_none {st : List Nat × List Bucket} {b : Bucket}
    (h : extendFirst st.2 b = none) :
    dedupStep st b = (st.1 ++ [st.2.length], st.2 ++ [b]) := by
  unfold dedupStep
  rw [h]

theorem dedupStep_some {st : List Nat × List Bucket} {b : Bucket} {i : Nat}
    {idx' : List Bucket} (h : extendFirst st.2 b = some (i, idx')) :
    dedupStep st b = (st.1 ++ [i], idx') := by
  unfold dedupStep
  rw [h]

theorem get?_append_singleton {α : Type _} {l : List α} {v x : α} {n : Nat}
    (h : (l ++ [v]).get? n = some x) :
    l.get? n = some x ∨ (n = l.length ∧ x = v) := by
  rcases lt_trichotomy n l.length with hn | hn | hn
  · left
    rw [List.get?_append hn] at h
    exact h
  · right
    subst hn
    rw [List.get?_concat_length] at h
    exact ⟨rfl, (Option.some.inj h).symm⟩
  · exfalso
    have : (l ++ [v]).get? n = none := by
      rw [List.get?_eq_none]
      simp only [List.length_append, List.length_singleton]
      omega
    rw [this] at h
    exact Option.noConfusion h

theorem dedup_mono : ∀ (bs : List Bucket) (st : List Nat × List Bucket) (j : Nat) (y : Bucket),
    st.2.get? j = some y →
    ∃ y', (bs.foldl dedupStep st).2.get? j = some y' ∧ Pref y.widths y'.widths ∧
      ∀ e ∈ y.entry_set, e ∈ y'.entry_set := by
  intro bs
  induction bs with
  | nil => exact fun st j y hy => ⟨y, hy, pref_rfl, fun e he => he⟩
  | cons b bs ih =>
    intro st j y hy
    rw [List.foldl_cons]
    rcases h2 : extendFirst st.2 b with _ | ⟨i, idx'⟩
    · rw [dedupStep_none h2]
      have hlt : j < st.2.length := (List.get?_eq_some.mp hy).1
      have hj : ((st.1 ++ [st.2.length], st.2 ++ [b]).2).get? j = some y := by
        show (st.2 ++ [b]).get? j = some y
        rw [List.get?_append hlt]
        exact hy
      exact ih _ j y hj
    · rw [dedupStep_some h2]
      obtain ⟨y1, hy1, hp1, hs1⟩ := extendFirst_mono h2 j y hy
      obtain ⟨y2, hy2, hp2, hs2⟩ := ih (st.1 ++ [i], idx') j y1 hy1
      exact ⟨y2, hy2, pref_trans hp1 hp2, fun e he => hs2 e (hs1 e he)⟩

theorem dedup_fst_ext : ∀ (bs : List Bucket) (st : List Nat × List Bucket),
    ∃ tail, (bs.foldl dedupStep st).1 = st.1 ++ tail ∧ tail.length = bs.length := by
  intro bs
  induction bs with
  | nil => exact fun st => ⟨[], (List.append_nil st.1).symm, rfl⟩
  | cons b bs ih =>
    intro st
    rw [List.foldl_cons]
    rcases h2 : extendFirst st.2 b with _ | ⟨i, idx'⟩
    · rw [dedupStep_none h2]
      obtain ⟨tail, ht1, ht2⟩ := ih (st.1 ++ [st.2.length], st.2 ++ [b])
      refine ⟨st.2.length :: tail, ?_, by simp [ht2]⟩
      rw [ht1]
      simp
    · rw [dedupStep_some h2]
      obtain ⟨tail, ht1, ht2⟩ := ih (st.1 ++ [i], idx')
      refine ⟨i :: tail, ?_, by simp [ht2]⟩
      rw [ht1]
      simp

theorem dedup_fst_length (bs : List Bucket) (st : List Nat × List Bucket) :
    (bs.foldl dedupStep st).1.length = st.1.length + bs.length := by
  obtain ⟨tail, ht1, ht2⟩ := dedup_fst_ext bs st
  rw [ht1, List.length_append, ht2]

theorem dedup_snd_le : ∀ (bs : List Bucket) (st : List Nat × List Bucket),
    (bs.foldl dedupStep st).2.length ≤ st.2.length + bs.length := by
  intro bs
  induction bs with
  | nil => exact fun st => Nat.le_of_eq (by simp)
  | cons b bs ih =>
    intro st
    rw [List.foldl_cons]
    rcases h2 : extendFirst st.2 b with _ | ⟨i, idx'⟩
    · rw [dedupStep_none h2]
      have := ih (st.1 ++ [st.2.length], st.2 ++ [b])
      simp only [List.length_append, List.length_singleton] at this
      simp only [List.length_cons]
      omega
    · rw [dedupStep_some h2]
      have hthis := ih (st.1 ++ [i], idx')
      have ha : ((st.1 ++ [i], idx') : List Nat × List Bucket).2.length = st.2.length :=
        (extendFirst_length h2).1
      simp only [List.length_cons]
      omega

theorem dedup_mem : ∀ (bs : List Bucket) (st : List Nat × List Bucket) (p : Nat) (b : Bucket),
    bs.get? p = some b →
    ∃ i, (bs.foldl dedupStep st).1.get? (st.1.length + p) = some i ∧
      ∃ x, (bs.foldl dedupStep st).2.get? i = some x ∧
        ∀ e ∈ b.entry_set, e ∈ x.entry_set := by
  intro bs
  induction bs with
  | nil => intro st p b hb; exact Option.noConfusion hb
  | cons b0 bs ih =>
    intro st p b hb
    rw [List.foldl_cons]
    cases p with
    | zero =>
      obtain rfl : b0 = b := Option.some.inj hb
      rcases h2 : extendFirst st.2 b0 with _ | ⟨i0, idx'⟩
      · rw [dedupStep_none h2]
        refine ⟨st.2.length, ?_, ?_⟩
        · obtain ⟨tail, ht1, _⟩ := dedup_fst_ext bs (st.1 ++ [st.2.length], st.2 ++ [b0])
          rw [ht1]
          show ((st.1 ++ [st.2.length]) ++ tail).get? (st.1.length + 0) = _
          rw [List.get?_append (by simp)]
          simpa using List.get?_concat_length st.1 st.2.length
        · have hb0 : ((st.1 ++ [st.2.length], st.2 ++ [b0]).2).get? st.2.length = some b0 :=
            List.get?_concat_length st.2 b0
          obtain ⟨x, hx1, _, hx3⟩ := dedup_mono bs _ st.2.length b0 hb0
          exact ⟨x, hx1, hx3⟩
      · rw [dedupStep_some h2]
        refine ⟨i0, ?_, ?_⟩
        · obtain ⟨tail, ht1, _⟩ := dedup_fst_ext bs (st.1 ++ [i0], idx')
          rw [ht1]
          show ((st.1 ++ [i0]) ++ tail).get? (st.1.length + 0) = _
          rw [List.get?_append (by simp)]
          simpa using List.get?_concat_length st.1 i0
        · obtain ⟨y, hy1, hy2, _⟩ := extendFirst_found h2
          obtain ⟨x, hx1, _, hx3⟩ := dedup_mono bs (st.1 ++ [i0], idx') i0 y hy1
          exact ⟨x, hx1, fun e he => hx3 e (hy2 e he)⟩
    | succ p' =>
      have hb' : bs.get? p' = some b := hb
      rcases h2 : extendFirst st.2 b0 with _ | ⟨i0, idx'⟩
      · rw [dedupStep_none h2]
        obtain ⟨i, hi, hx⟩ := ih (st.1 ++ [st.2.length], st.2 ++ [b0]) p' b hb'
        refine ⟨i, ?_, hx⟩
        have harith : (st.1 ++ [st.2.length]).length + p' = st.1.length + (p' + 1) := by
          simp only [List.length_append, List.length_singleton]
          omega
        rw [harith] at hi
        exact hi
      · rw [dedupStep_some h2]
        obtain ⟨i, hi, hx⟩ := ih (st.1 ++ [i0], idx') p' b hb'
        refine ⟨i, ?_, hx⟩
        have harith : (st.1 ++ [i0]).length + p' = st.1.length + (p' + 1) := by
          simp only [List.length_append, List.length_singleton]
          omega
        rw [harith] at hi
        exact hi

theorem dedup_pairwise : ∀ (bs : List Bucket) (st : List Nat × List Bucket),
    PairwiseClash st.2 → PairwiseClash (bs.foldl dedupStep st).2 := by
  intro bs
  induction bs with
  | nil => exact fun st h => h
  | cons b0 bs ih =>
    intro st hst
    rw [List.foldl_cons]
    refine ih _ ?_
    rcases h2 : extendFirst st.2 b0 with _ | ⟨i0, idx'⟩
    · rw [dedupStep_none h2]
      intro i j bi bj hij hbi hbj
      have hall := (extendFirst_none_iff st.2 b0).mp h2
      rcases get?_append_singleton hbi with hbi' | ⟨hi1, hi2⟩
      · rcases get?_append_singleton hbj with hbj' | ⟨hj1, hj2⟩
        · exact hst i j bi bj hij hbi' hbj'
        · rw [hj2]
          have := hall bi (List.get?_mem hbi')
          exact (try_extend_false_iff bi b0).mp this
      · rcases get?_append_singleton hbj with hbj' | ⟨hj1, hj2⟩
        · rw [hi2]
          have := hall bj (List.get?_mem hbj')
          exact clash_symm ((try_extend_false_iff bj b0).mp this)
        · exact absurd (hi1.trans hj1.symm) hij
    · rw [dedupStep_some h2]
      obtain ⟨x, hx1, hx2, hx3⟩ := extendFirst_some_char h2
      intro i j bi bj hij hbi hbj
      have getChar : ∀ k bk, idx'.get? k = some bk →
          ∃ bo, st.2.get? k = some bo ∧ Pref bo.widths bk.widths := by
        intro k bk hbk
        by_cases hk : k = i0
        · subst hk
          rw [hx3, List.get?_set_eq, hx1] at hbk
          obtain rfl : (Bucket.try_extend x b0).2.1 = bk := Option.some.inj hbk
          exact ⟨x, hx1, try_extend_self_pref x b0⟩
        · rw [hx3, List.get?_set_ne _ st.2 (fun hh => hk hh.symm)] at hbk
          exact ⟨bk, hbk, pref_rfl⟩
      obtain ⟨oi, hoi1, hoi2⟩ := getChar i bi hbi
      obtain ⟨oj, hoj1, hoj2⟩ := getChar j bj hbj
      exact clash_pref_stable hoi2 hoj2 (hst i j oi oj hij hoi1 hoj1)

theorem dedup_wf : ∀ (bs : List Bucket) (st : List Nat × List Bucket),
    (∀ x ∈ st.2, BucketWF x) → (∀ b ∈ bs, BucketWF b) →
    ∀ x ∈ (bs.foldl dedupStep st).2, BucketWF x := by
  intro bs
  induction bs with
  | nil => exact fun st h _ => h
  | cons b0 bs ih =>
    intro st hst hbs
    rw [List.foldl_cons]
    refine ih _ ?_ (fun b hb => hbs b (List.mem_cons_of_mem b0 hb))
    have hb0 : BucketWF b0 := hbs b0 (List.mem_cons_self b0 bs)
    rcases h2 : extendFirst st.2 b0 with _ | ⟨i0, idx'⟩
    · rw [dedupStep_none h2]
      intro x hx
      rcases List.mem_append.mp hx with hx' | hx'
      · exact hst x hx'
      · rw [List.mem_singleton.mp hx']
        exact hb0
    · rw [dedupStep_some h2]
      exact extendFirst_wf h2 hst hb0

/-! ### `index_buckets` corollaries -/

theorem index_buckets_fst_length (bs : List Bucket) :
    (index_buckets bs).1.length = bs.length := by
  have := dedup_fst_length bs ([], [])
  simpa [index_buckets] using this

theorem index_buckets_snd_le (bs : List Bucket) :
    (index_buckets bs).2.length ≤ bs.length := by
  have := dedup_snd_le bs ([], [])
  simpa [index_buckets] using this

theorem index_buckets_mem {bs : List Bucket} {p : Nat} {b : Bucket}
    (h : bs.get? p = some b) :
    ∃ i, (index_buckets bs).1.get? p = some i ∧
      ∃ x, (index_buckets bs).2.get? i = some x ∧
        ∀ e ∈ b.entry_set, e ∈ x.entry_set := by
  have := dedup_mem bs ([], []) p b h
  simpa [index_buckets] using this

theorem index_buckets_pairwise (bs : List Bucket) :
    PairwiseClash (index_buckets bs).2 :=
  dedup_pairwise bs ([], []) (fun _ _ _ _ _ hbi => Option.noConfusion hbi)

theorem index_buckets_wf {bs : List Bucket} (h : ∀ b ∈ bs, BucketWF b) :
    ∀ x ∈ (index_buckets bs).2, BucketWF x :=
  dedup_wf bs ([], []) (fun x hx => absurd hx (List.not_mem_nil x)) h

/-! ### `make_buckets` and the raw bucket list -/

theorem listModify_length : ∀ (l : List α) (i : Nat) (f : α → α),
    (listModify l i f).length = l.length := by
  intro l
  induction l with
  | nil => intro i f; rfl
  | cons x xs ih =>
    intro i f
    cases i with
    | zero => rfl
    | succ i' => simp [listModify, ih]

theorem get?_listModify_self : ∀ {l : List α} {i : Nat} {x : α} (f : α → α),
    l.get? i = some x → (listModify l i f).get? i = some (f x) := by
  intro l
  induction l with
  | nil => intro i x f h; exact Option.noConfusion h
  | cons y ys ih =>
    intro i x f h
    cases i with
    | zero =>
      obtain rfl : y = x := Option.some.inj h
      rfl
    | succ i' => exact ih f h

theorem get?_listModify_ne : ∀ {l : List α} {i : Nat} (f : α → α) {j : Nat},
    j ≠ i → (listModify l i f).get? j = l.get? j := by
  intro l
  induction l with
  | nil => intro i f j _; rfl
  | cons y ys ih =>
    intro i f j hj
    cases i with
    | zero =>
      cases j with
      | zero => exact absurd rfl hj
      | succ j' => rfl
    | succ i' =>
      cases j with
      | zero => rfl
      | succ j' => exact ih f (fun hh => hj (by rw [hh]))

theorem mem_listModify : ∀ {l : List α} {i : Nat} {f : α → α} {y : α},
    y ∈ listModify l i f → y ∈ l ∨ ∃ x, l.get? i = some x ∧ y = f x := by
  intro l
  induction l with
  | nil => intro i f y h; exact absurd h (List.not_mem_nil y)
  | cons z zs ih =>
    intro i f y h
    cases i with
    | zero =>
      rcases List.mem_cons.mp h with rfl | h'
      · exact Or.inr ⟨z, rfl, rfl⟩
      · exact Or.inl (List.mem_cons_of_mem z h')
    | succ i' =>
      rcases List.mem_cons.mp h with rfl | h'
      · exact Or.inl (List.mem_cons_self y zs)
      · rcases ih h' with h'' | ⟨x, hx1, hx2⟩
        · exact Or.inl (List.mem_cons_of_mem z h'')
        · exact Or.inr ⟨x, hx1, hx2⟩

theorem append_wf {b : Bucket} (h : BucketWF b) (c w : Nat) : BucketWF (b.append c w) := by
  intro e he
  rcases mem_entryInsert.mp he with he' | rfl
  · exact List.mem_append_left _ (h e he')
  · exact List.mem_append_right _ (List.mem_singleton.mpr rfl)

theorem mbfold_length (lo nb : Nat) : ∀ (es : List Entry) (bs : List Bucket),
    (es.foldl (mbStep lo nb) bs).length = bs.length := by
  intro es
  induction es with
  | nil => intro bs; rfl
  | cons e es' ih =>
    intro bs
    rw [List.foldl_cons, ih]
    exact listModify_length bs _ _

theorem mbfold_mono (lo nb : Nat) : ∀ (es : List Entry) (bs : List Bucket) (j : Nat)
    (x : Bucket), bs.get? j = some x →
    ∃ x', (es.foldl (mbStep lo nb) bs).get? j = some x' ∧
      ∀ e ∈ x.entry_set, e ∈ x'.entry_set := by
  intro es
  induction es with
  | nil => exact fun bs j x hx => ⟨x, hx, fun e he => he⟩
  | cons e es' ih =>
    intro bs j x hx
    rw [List.foldl_cons]
    by_cases hj : j = (e.1 >>> lo) &&& ((1 <<< nb) - 1)
    · subst hj
      have step : (mbStep lo nb bs e).get? ((e.1 >>> lo) &&& ((1 <<< nb) - 1)) =
          some (x.append e.1 e.2) := get?_listModify_self _ hx
      obtain ⟨x', hx'1, hx'2⟩ := ih (mbStep lo nb bs e) _ _ step
      refine ⟨x', hx'1, fun e' he' => hx'2 e' ?_⟩
      exact mem_entryInsert.mpr (Or.inl he')
    · have step : (mbStep lo nb bs e).get? j = some x := by
        rw [mbStep, get?_listModify_ne _ hj]
        exact hx
      exact ih (mbStep lo nb bs e) j x step

theorem mbfold_place (lo nb : Nat) : ∀ (es : List Entry) (bs : List Bucket) (c w : Nat),
    (c, w) ∈ es → ((c >>> lo) &&& ((1 <<< nb) - 1)) < bs.length →
    ∃ x, (es.foldl (mbStep lo nb) bs).get? ((c >>> lo) &&& ((1 <<< nb) - 1)) = some x ∧
      (c, w) ∈ x.entry_set := by
  intro es
  induction es with
  | nil => intro bs c w hm; exact absurd hm (List.not_mem_nil _)
  | cons e es' ih =>
    intro bs c w hm hlt
    rw [List.foldl_cons]
    rcases List.mem_cons.mp hm with rfl | hm'
    · obtain ⟨x0, hx0⟩ : ∃ x0, bs.get? ((c >>> lo) &&& ((1 <<< nb) - 1)) = some x0 := by
        rcases List.get?_eq_get hlt with h
        exact ⟨_, h⟩
      have step : (mbStep lo nb bs (c, w)).get? ((c >>> lo) &&& ((1 <<< nb) - 1)) =
          some (x0.append c w) := get?_listModify_self _ hx0
      obtain ⟨x', hx'1, hx'2⟩ := mbfold_mono lo nb es' _ _ _ step
      refine ⟨x', hx'1, hx'2 (c, w) ?_⟩
      exact mem_entryInsert.mpr (Or.inr rfl)
    · have hlt' : ((c >>> lo) &&& ((1 <<< nb) - 1)) < (mbStep lo nb bs e).length := by
        rw [mbStep, listModify_length]
        exact hlt
      exact ih (mbStep lo nb bs e) c w hm' hlt'

theorem mbfold_wf (lo nb : Nat) : ∀ (es : List Entry) (bs : List Bucket),
    (∀ x ∈ bs, BucketWF x) → ∀ x ∈ es.foldl (mbStep lo nb) bs, BucketWF x := by
  intro es
  induction es with
  | nil => exact fun bs h => h
  | cons e es' ih =>
    intro bs hbs
    rw [List.foldl_cons]
    refine ih _ ?_
    intro x hx
    rcases mem_listModify hx with hx' | ⟨x0, hx0, rfl⟩
    · exact hbs x hx'
    · exact append_wf (hbs x0 (List.get?_mem hx0)) e.1 e.2

theorem make_buckets_length (es : List Entry) (lo nb : Nat) :
    (make_buckets es lo nb).length = 2 ^ nb := by
  rw [make_buckets, mbfold_length, List.length_replicate]

theorem key_lt (c lo nb : Nat) : ((c >>> lo) &&& ((1 <<< nb) - 1)) < 2 ^ nb := by
  have h1 : (c >>> lo) &&& ((1 <<< nb) - 1) ≤ (1 <<< nb) - 1 := Nat.and_le_right
  have h2 : (1 : Nat) <<< nb = 2 ^ nb := by
    rw [Nat.shiftLeft_eq, one_mul]
  have h3 : 0 < 2 ^ nb := Nat.pos_pow_of_pos nb (by omega)
  omega

theorem make_buckets_mem {es : List Entry} {c w : Nat} (lo nb : Nat) (h : (c, w) ∈ es) :
    ∃ x, (make_buckets es lo nb).get? ((c >>> lo) &&& ((1 <<< nb) - 1)) = some x ∧
      (c, w) ∈ x.entry_set := by
  rw [make_buckets]
  refine mbfold_place lo nb es _ c w h ?_
  rw [List.length_replicate]
  exact key_lt c lo nb

theorem make_buckets_wf (es : List Entry) (lo nb : Nat) :
    ∀ x ∈ make_buckets es lo nb, BucketWF x := by
  rw [make_buckets]
  refine mbfold_wf lo nb es _ ?_
  intro x hx
  rw [List.eq_of_mem_replicate hx]
  intro e he
  exact absurd he (List.not_mem_nil e)

theorem mkRawBuckets_eq (groups : List (List Entry)) (lo nb : Nat) :
    mkRawBuckets groups lo nb = (groups.map (fun es => make_buckets es lo nb)).join := by
  suffices h : ∀ (gs : List (List Entry)) (a : List Bucket),
      gs.foldl (fun acc es => acc ++ make_buckets es lo nb) a =
        a ++ (gs.map (fun es => make_buckets es lo nb)).join by
    have := h groups []
    simpa [mkRawBuckets] using this
  intro gs
  induction gs with
  | nil => intro a; simp
  | cons g gs' ih =>
    intro a
    rw [List.foldl_cons, ih]
    simp

theorem mkRawBuckets_length (groups : List (List Entry)) (lo nb : Nat) :
    (mkRawBuckets groups lo nb).length = groups.length * 2 ^ nb := by
  rw [mkRawBuckets_eq]
  induction groups with
  | nil => simp
  | cons g gs ih =>
    simp only [List.map_cons, List.join_cons, List.length_append, ih,
      make_buckets_length, List.length_cons]
    ring

theorem mkRawBuckets_get? {groups : List (List Entry)} {g : Nat} {es : List Entry}
    (lo nb : Nat) (hg : groups.get? g = some es) {j : Nat} (hj : j < 2 ^ nb) :
    (mkRawBuckets groups lo nb).get? (g * 2 ^ nb + j) =
      (make_buckets es lo nb).get? j := by
  rw [mkRawBuckets_eq]
  induction groups generalizing g with
  | nil => exact Option.noConfusion hg
  | cons g0 gs ih =>
    cases g with
    | zero =>
      obtain rfl : g0 = es := Option.some.inj hg
      simp only [List.map_cons, List.join_cons, Nat.zero_mul, Nat.zero_add]
      rw [List.get?_append]
      rw [make_buckets_length]
      exact hj
    | succ g' =>
      simp only [List.map_cons, List.join_cons]
      rw [List.get?_append_right]
      · have harith : (g' + 1) * 2 ^ nb + j - (make_buckets g0 lo nb).length =
            g' * 2 ^ nb + j := by
          rw [make_buckets_length]
          have : (g' + 1) * 2 ^ nb = g' * 2 ^ nb + 2 ^ nb := by ring
          omega
        rw [harith]
        exact ih hg
      · rw [make_buckets_length]
        have : (g' + 1) * 2 ^ nb = g' * 2 ^ nb + 2 ^ nb := by ring
        omega

theorem mkRawBuckets_wf (groups : List (List Entry)) (lo nb : Nat) :
    ∀ x ∈ mkRawBuckets groups lo nb, BucketWF x := by
  rw [mkRawBuckets_eq]
  intro x hx
  rw [List.mem_join] at hx
  obtain ⟨l, hl, hxl⟩ := hx
  rw [List.mem_map] at hl
  obtain ⟨es, _, rfl⟩ := hl
  exact make_buckets_wf es lo nb x hxl

/-! ### `Table.init` characterization -/

theorem table_init_fields {groups : List (List Entry)} {lo cap ot : Nat} {t : Table}
    (h : Table.init groups lo cap ot = some t) :
    t.low_bit = lo ∧ t.num_bits = cap - lo ∧ t.offset_type = ot ∧
    t.indices = (index_buckets (mkRawBuckets groups lo (cap - lo))).1 ∧
    t.indexed = (index_buckets (mkRawBuckets groups lo (cap - lo))).2 ∧
    ∀ i ∈ t.indices, i < 2 ^ ot := by
  simp only [Table.init] at h
  split_ifs at h with hall
  obtain rfl : (⟨lo, cap - lo, ot,
      (index_buckets (mkRawBuckets groups lo (cap - lo))).1,
      (index_buckets (mkRawBuckets groups lo (cap - lo))).2⟩ : Table) = t :=
    Option.some.inj h
  refine ⟨rfl, rfl, rfl, rfl, rfl, ?_⟩
  intro i hi
  exact of_decide_eq_true (List.all_eq_true.mp hall i hi)

theorem table_init_wf {groups : List (List Entry)} {lo cap ot : Nat} {t : Table}
    (h : Table.init groups lo cap ot = some t) :
    ∀ x ∈ t.indexed, BucketWF x := by
  obtain ⟨-, -, -, -, h5, -⟩ := table_init_fields h
  rw [h5]
  exact index_buckets_wf (mkRawBuckets_wf groups lo (cap - lo))

theorem table_init_mem {groups : List (List Entry)} {lo cap ot : Nat} {t : Table}
    {g : Nat} {es : List Entry} {c w : Nat}
    (h : Table.init groups lo cap ot = some t)
    (hg : groups.get? g = some es) (he : (c, w) ∈ es) :
    ∃ i, t.indices.get?
        (g * 2 ^ t.num_bits + ((c >>> t.low_bit) &&& (2 ^ t.num_bits - 1))) = some i ∧
      ∃ x, t.indexed.get? i = some x ∧ (c, w) ∈ x.entry_set := by
  obtain ⟨hf1, hf2, -, hf4, hf5, -⟩ := table_init_fields h
  have hmask : (2 : Nat) ^ t.num_bits - 1 = (1 <<< t.num_bits) - 1 := by
    rw [Nat.shiftLeft_eq, one_mul]
  obtain ⟨rb, hrb1, hrb2⟩ := make_buckets_mem lo (cap - lo) he
  have hraw : (mkRawBuckets groups lo (cap - lo)).get?
      (g * 2 ^ (cap - lo) + ((c >>> lo) &&& ((1 <<< (cap - lo)) - 1))) = some rb := by
    rw [mkRawBuckets_get? lo (cap - lo) hg (key_lt c lo (cap - lo))]
    exact hrb1
  obtain ⟨i, hi1, x, hx1, hx2⟩ := index_buckets_mem hraw
  refine ⟨i, ?_, x, ?_, hx2 (c, w) hrb2⟩
  · rw [hf4, hmask, hf2, hf1]
    exact hi1
  · rw [hf5]
    exact hx1

/-! ### Sorted entry lists and bucket widths -/

theorem mem_insSorted {e x : Entry} : ∀ {l : List Entry},
    x ∈ insSorted e l ↔ x = e ∨ x ∈ l := by
  intro l
  induction l with
  | nil => simp [insSorted]
  | cons y ys ih =>
    unfold insSorted
    split
    · simp
    · rw [List.mem_cons, ih, List.mem_cons]
      tauto

theorem mem_sortEntries {x : Entry} : ∀ {l : List Entry}, x ∈ sortEntries l ↔ x ∈ l := by
  intro l
  induction l with
  | nil => simp [sortEntries]
  | cons y ys ih =>
    show x ∈ insSorted y (sortEntries ys) ↔ _
    rw [mem_insSorted, ih, List.mem_cons]

theorem mem_entries {b : Bucket} {x : Entry} : x ∈ b.entries ↔ x ∈ b.entry_set :=
  mem_sortEntries

theorem width_eq_of_mem {b : Bucket} {v w : Nat}
    (h : Bucket.width b = some v) (hw : w ∈ b.widths) : w = v := by
  unfold Bucket.width at h
  cases hb : b.widths with
  | nil =>
    rw [hb] at h
    exact Option.noConfusion h
  | cons w0 rest =>
    rw [hb] at h hw
    have h' : (if (rest.all fun x => decide (x = w0)) = true then some w0 else none) =
        some v := h
    split_ifs at h' with hall
    obtain rfl : w0 = v := Option.some.inj h'
    rcases List.mem_cons.mp hw with rfl | hw'
    · rfl
    · exact of_decide_eq_true (List.all_eq_true.mp hall w hw')

theorem width_none_of_two {b : Bucket} {w1 w2 : Nat}
    (h1 : w1 ∈ b.widths) (h2 : w2 ∈ b.widths) (hne : w1 ≠ w2) :
    Bucket.width b = none := by
  cases hw : Bucket.width b with
  | none => rfl
  | some v =>
    exact absurd ((width_eq_of_mem hw h1).trans (width_eq_of_mem hw h2).symm) hne

/-! ### The cascade walk -/

theorem make_tablesAux_some_cons {lo cap ot : Nat} {rest : List (Nat × Nat × Nat)}
    {groups : List (List Entry)} {tables : List Table}
    (h : make_tablesAux ((lo, cap, ot) :: rest) groups = some tables) :
    ∃ t ts, Table.init groups lo cap ot = some t ∧
      make_tablesAux rest (t.indexed.map Bucket.entries) = some ts ∧
      tables = t :: ts := by
  unfold make_tablesAux at h
  cases h1 : Table.init groups lo cap ot with
  | none =>
    rw [h1] at h
    exact Option.noConfusion h
  | some t =>
    rw [h1] at h
    have h' : (match make_tablesAux rest (t.indexed.map Bucket.entries) with
        | none => none
        | some ts => some (t :: ts)) = some tables := h
    cases h2 : make_tablesAux rest (t.indexed.map Bucket.entries) with
    | none =>
      rw [h2] at h'
      exact Option.noConfusion h'
    | some ts =>
      rw [h2] at h'
      exact ⟨t, ts, rfl, h2, (Option.some.inj h').symm⟩

theorem make_tablesAux_length : ∀ {cfgs : List (Nat × Nat × Nat)}
    {groups : List (List Entry)} {tables : List Table},
    make_tablesAux cfgs groups = some tables → tables.length = cfgs.length := by
  intro cfgs
  induction cfgs with
  | nil =>
    intro groups tables h
    have htab : tables = [] := (Option.some.inj h).symm
    subst htab
    rfl
  | cons cfg rest ih =>
    intro groups tables h
    rcases cfg with ⟨lo, cap, ot⟩
    obtain ⟨t, ts, _, h2, rfl⟩ := make_tablesAux_some_cons h
    simp [ih h2]

theorem walk_mem : ∀ (cfgs : List (Nat × Nat × Nat)) (groups : List (List Entry))
    (tables : List Table) (tl : Table),
    make_tablesAux cfgs groups = some tables →
    tables.getLast? = some tl →
    (∀ x ∈ tl.indexed, (Bucket.width x).isSome = true) →
    ∀ (g : Nat) (es : List Entry) (c w : Nat),
      groups.get? g = some es → (c, w) ∈ es →
      decodeCascade tables c g = some w := by
  intro cfgs
  induction cfgs with
  | nil =>
    intro groups tables tl hb hl _ g es c w _ _
    have htab : tables = [] := (Option.some.inj hb).symm
    subst htab
    exact Option.noConfusion hl
  | cons cfg rest ih =>
    intro groups tables tl hb hl hhom g es c w hg he
    rcases cfg with ⟨lo, cap, ot⟩
    obtain ⟨t, ts, h1, h2, rfl⟩ := make_tablesAux_some_cons hb
    obtain ⟨i, hi, x, hx, hcw⟩ := table_init_mem h1 hg he
    cases rest with
    | nil =>
      have hts : ts = [] := List.length_eq_zero.mp (make_tablesAux_length h2)
      subst hts
      have htl : tl = t := by
        have hgl : ([t] : List Table).getLast? = some t := rfl
        rw [hgl] at hl
        exact (Option.some.inj hl).symm
      subst htl
      have e1 : decodeCascade [tl] c g =
          match tl.indices.get?
              (g * 2 ^ tl.num_bits + ((c >>> tl.low_bit) &&& (2 ^ tl.num_bits - 1))) with
          | none => none
          | some i => (tl.indexed.get? i).bind Bucket.width := rfl
      rw [e1, hi]
      show (tl.indexed.get? i).bind Bucket.width = some w
      rw [hx]
      show Bucket.width x = some w
      have hxmem : x ∈ tl.indexed := List.get?_mem hx
      obtain ⟨v, hv⟩ := Option.isSome_iff_exists.mp (hhom x hxmem)
      have hwv : w = v := width_eq_of_mem hv ((table_init_wf h1 x hxmem) (c, w) hcw)
      rw [hv, hwv]
    | cons cfg' rest' =>
      have hlen := make_tablesAux_length h2
      cases ts with
      | nil => simp at hlen
      | cons t2 ts' =>
        have hl' : (t2 :: ts').getLast? = some tl := by
          rw [← hl]
          exact List.getLast?_cons_cons.symm
        have hg' : (t.indexed.map Bucket.entries).get? i = some x.entries := by
          rw [List.get?_map, hx]
          rfl
        have he' : (c, w) ∈ x.entries := mem_entries.mpr hcw
        have hrec := ih (t.indexed.map Bucket.entries) (t2 :: ts') tl h2 hl' hhom
          i x.entries c w hg' he'
        have e1 : decodeCascade (t :: t2 :: ts') c g =
            match t.indices.get?
                (g * 2 ^ t.num_bits + ((c >>> t.low_bit) &&& (2 ^ t.num_bits - 1))) with
            | none => none
            | some i => decodeCascade (t2 :: ts') c i := rfl
        rw [e1, hi]
        exact hrec

/-! ### Remaining helpers -/

theorem bucket_eq_mk {x : Bucket} {A : List Entry} {B : List Nat}
    (h1 : x.entry_set = A) (h2 : x.widths = B) : x = ⟨A, B⟩ := by
  cases x
  cases h1
  cases h2
  rfl

theorem mapOrAbort_none_of_mem {α β : Type _} {f : α → Option β} {l : List α} {x : α}
    (hx : x ∈ l) (hfx : f x = none) : mapOrAbort f l = none := by
  induction l with
  | nil => exact absurd hx (List.not_mem_nil x)
  | cons y ys ih =>
    unfold mapOrAbort
    rcases List.mem_cons.mp hx with rfl | hx'
    · rw [hfx]
    · cases hfy : f y
      · rfl
      · rw [ih hx']

theorem index_buckets_of_pairwise {bs : List Bucket} (hp : PairwiseClash bs) :
    index_buckets bs = (List.range bs.length, bs) := by
  suffices hgen : ∀ (post pre : List Bucket), pre ++ post = bs →
      post.foldl dedupStep (List.range pre.length, pre) = (List.range bs.length, bs) by
    have := hgen bs [] rfl
    simpa [index_buckets] using this
  intro post
  induction post with
  | nil =>
    intro pre hpre
    rw [List.append_nil] at hpre
    subst hpre
    rfl
  | cons b post' ih =>
    intro pre hpre
    rw [List.foldl_cons]
    have hnone : extendFirst pre b = none := by
      rw [extendFirst_none_iff]
      intro x hx
      rw [try_extend_false_iff]
      obtain ⟨k, hk⟩ := List.get?_of_mem hx
      have hklt : k < pre.length := (List.get?_eq_some.mp hk).1
      have hkb : bs.get? k = some x := by
        rw [← hpre, List.get?_append hklt]
        exact hk
      have hmb : bs.get? pre.length = some b := by
        rw [← hpre, List.get?_append_right (Nat.le_refl pre.length)]
        simp
      exact hp k pre.length x b (by omega) hkb hmb
    rw [dedupStep_none hnone]
    have hstate : ((List.range pre.length ++ [pre.length] : List Nat), pre ++ [b]) =
        ((List.range (pre ++ [b]).length : List Nat), pre ++ [b]) := by
      rw [List.length_append, List.length_singleton, List.range_succ]
    rw [show (List.range pre.length, pre).1 ++ [(List.range pre.length, pre).2.length] =
        List.range pre.length ++ [pre.length] from by simp]
    rw [hstate]
    exact ih (pre ++ [b]) (by rw [List.append_assoc]; exact hpre)

/-! ## The claims -/

/-- Claim C1: for every classified input array over a domain `[0, D)` and
every cascade configuration whose levels cover all the domain's bits
exactly once (in particular `TABLE_CFGS` over `[0, 0x110000)`), whenever
`make_tables` completes and the final level's buckets are
class-homogeneous (the validated precondition for reading final indices as
classes), walking the cascade for a value `c` — selecting at each level
the bucket given by that level's bit-slice of `c`, using the stored offset
as the next level's group index, and reading the final level's entry as a
width class — yields exactly the input array's class at `c`. -/
theorem cascade_decode_exact (cfgs : List (Nat × Nat × Nat)) (B D : Nat) (f : Nat → Nat)
    (tables : List Table) (tl : Table)
    (hchain : chainCovers cfgs B) (hD : D ≤ 2 ^ B)
    (hbuild : make_tables cfgs ((List.range D).map (fun c => (c, f c))) = some tables)
    (hlast : tables.getLast? = some tl)
    (hhom : ∀ b ∈ tl.indexed, (Bucket.width b).isSome = true)
    (c : Nat) (hc : c < D) :
    decodeCascade tables c 0 = some (f c) := by
  refine walk_mem cfgs [(List.range D).map (fun c => (c, f c))] tables tl hbuild hlast hhom
    0 ((List.range D).map (fun c => (c, f c))) c (f c) rfl ?_
  exact List.mem_map.mpr ⟨c, List.mem_range.mpr hc, rfl⟩

/-- Witness for C1: the spec's worked example — domain 16,
classes `[NARROW] * 8 ++ [WIDE] * 4 ++ [ZERO] * 4`, two-level cascade
splitting the top 2 bits then the bottom 2 bits; `decode 5 = NARROW = 1`. -/
theorem cascade_decode_exact_witness :
    decodeCascade ((make_tables [(2, 4, 8), (0, 2, 2)]
        ((List.range 16).map
          (fun c => (c, if c < 8 then 1 else if c < 12 then 2 else 0)))).getD [])
      5 0 = some 1 := by
  exact cascade_decode_exact [(2, 4, 8), (0, 2, 2)] 4 16
    (fun c => if c < 8 then 1 else if c < 12 then 2 else 0)
    ((make_tables [(2, 4, 8), (0, 2, 2)]
        ((List.range 16).map
          (fun c => (c, if c < 8 then 1 else if c < 12 then 2 else 0)))).getD [])
    (((make_tables [(2, 4, 8), (0, 2, 2)]
        ((List.range 16).map
          (fun c => (c, if c < 8 then 1 else if c < 12 then 2 else 0)))).getD []).getLast?.getD
      ⟨0, 0, 0, [], []⟩)
    ⟨rfl, by decide, rfl, by decide, rfl⟩
    (by decide)
    (by decide)
    (by decide)
    (by decide)
    5 (by decide)

/-- Claim C2: if the dedup pass while building a `Table` produces any
index `≥ 2 ^ offset_type`, the build fails via the hard assertion
(`assert index < (1 << int(self.offset_type))`): `Table.init` returns
`none` — no table and hence no packed byte array is ever produced, and
the out-of-range index is never wrapped or truncated. -/
theorem table_init_offset_overflow_aborts (groups : List (List Entry)) (lo cap ot : Nat)
    (h : ∃ i ∈ (index_buckets (mkRawBuckets groups lo (cap - lo))).1, 2 ^ ot ≤ i) :
    Table.init groups lo cap ot = none := by
  obtain ⟨i, hi, hge⟩ := h
  simp only [Table.init]
  split_ifs with hall
  · exfalso
    have := of_decide_eq_true (List.all_eq_true.mp hall i hi)
    omega
  · rfl

/-- Witness for C2: five pairwise-clashing single-width buckets under a
2-bit offset type force index 4 `≥ 2 ^ 2`, so the build aborts. -/
theorem table_init_offset_overflow_aborts_witness :
    Table.init [[(0, 0), (1, 1), (2, 2), (3, 3), (4, 4)]] 0 3 2 = none :=
  table_init_offset_overflow_aborts [[(0, 0), (1, 1), (2, 2), (3, 3), (4, 4)]] 0 3 2
    ⟨4, by decide, by decide⟩

/-- Claim C4: `Bucket.try_extend self other` returns `True` exactly when
the shorter of the two width sequences is a prefix of the longer
(equal-length sequences merge iff equal, which the prefix disjunction
captures); on success the receiver's width sequence becomes the longer of
the two and its entry set becomes the union of both entry sets; on
failure the receiver is unchanged. -/
theorem try_extend_prefix_merge_spec (s o : Bucket) :
    ((Bucket.try_extend s o).1 = true ↔ Pref s.widths o.widths ∨ Pref o.widths s.widths) ∧
    ((Bucket.try_extend s o).1 = true →
      (Bucket.try_extend s o).2.1.widths =
        (if s.widths.length ≤ o.widths.length then o.widths else s.widths) ∧
      ∀ e : Entry, e ∈ (Bucket.try_extend s o).2.1.entry_set ↔
        e ∈ s.entry_set ∨ e ∈ o.entry_set) ∧
    ((Bucket.try_extend s o).1 = false → (Bucket.try_extend s o).2.1 = s) :=
  ⟨try_extend_true_iff s o,
   fun h => ⟨(try_extend_success s o h).2, try_extend_success_mem s o h⟩,
   try_extend_false_self s o⟩

/-- Witness for C4: a successful merge (`[1]` into `[1, 2]`) keeps the
longer sequence and the union of the entries, and a failed merge
(`[1, 9]` versus `[1, 5]`) leaves the receiver unchanged. -/
theorem try_extend_prefix_merge_spec_witness :
    (Bucket.try_extend ⟨[(0, 1)], [1]⟩ ⟨[(4, 1), (5, 2)], [1, 2]⟩).1 = true ∧
    (Bucket.try_extend ⟨[(0, 1)], [1]⟩ ⟨[(4, 1), (5, 2)], [1, 2]⟩).2.1.widths = [1, 2] ∧
    (0, 1) ∈ (Bucket.try_extend ⟨[(0, 1)], [1]⟩ ⟨[(4, 1), (5, 2)], [1, 2]⟩).2.1.entry_set ∧
    (Bucket.try_extend ⟨[(0, 1)], [1, 9]⟩ ⟨[(4, 1)], [1, 5]⟩).1 = false ∧
    (Bucket.try_extend ⟨[(0, 1)], [1, 9]⟩ ⟨[(4, 1)], [1, 5]⟩).2.1 = ⟨[(0, 1)], [1, 9]⟩ := by
  obtain ⟨h1, h2, h3⟩ :=
    try_extend_prefix_merge_spec ⟨[(0, 1)], [1]⟩ ⟨[(4, 1), (5, 2)], [1, 2]⟩
  obtain ⟨h1', h2', h3'⟩ :=
    try_extend_prefix_merge_spec ⟨[(0, 1)], [1, 9]⟩ ⟨[(4, 1)], [1, 5]⟩
  have ht : (Bucket.try_extend ⟨[(0, 1)], [1]⟩ ⟨[(4, 1), (5, 2)], [1, 2]⟩).1 = true :=
    h1.mpr (Or.inl ⟨[2], rfl⟩)
  have hf : (Bucket.try_extend ⟨[(0, 1)], [1, 9]⟩ ⟨[(4, 1)], [1, 5]⟩).1 = false :=
    Bool.not_eq_true _ |>.mp (fun hh => by
      rcases h1'.mp hh with hp | hp <;> exact absurd hp (by rintro ⟨t, ht'⟩ <;> simp at ht'))
  refine ⟨ht, ?_, ?_, hf, h3' hf⟩
  · have := (h2 ht).1
    simpa using this
  · exact ((h2 ht).2 (0, 1)).mpr (Or.inl (by decide))

/-- Claim C5: after a level's first-fit dedup pass, no two distinct
retained buckets have prefix-compatible width sequences: for any two
distinct positions of the retained list, neither bucket's width
sequence is a prefix of the other's. -/
theorem index_buckets_no_prefix_compatible_pair (bs : List Bucket) (ids : List Nat)
    (idx : List Bucket) (h : index_buckets bs = (ids, idx)) (i j : Nat) (bi bj : Bucket)
    (hij : i ≠ j) (hi : idx.get? i = some bi) (hj : idx.get? j = some bj) :
    ¬ Pref bi.widths bj.widths := by
  have hp := index_buckets_pairwise bs
  rw [h] at hp
  have hp2 : PairwiseClash idx := hp
  exact clash_not_pref (hp2 i j bi bj hij hi hj)

/-- Witness for C5: deduplicating two clashing buckets retains both, and
the first retained width sequence `[1]` is not a prefix of `[2]`. -/
theorem index_buckets_no_prefix_compatible_pair_witness :
    ¬ Pref (Bucket.mk [(0, 1)] [1]).widths (Bucket.mk [(1, 2)] [2]).widths :=
  index_buckets_no_prefix_compatible_pair [⟨[(0, 1)], [1]⟩, ⟨[(1, 2)], [2]⟩] [0, 1]
    [⟨[(0, 1)], [1]⟩, ⟨[(1, 2)], [2]⟩] (by decide) 0 1 ⟨[(0, 1)], [1]⟩ ⟨[(1, 2)], [2]⟩
    (by decide) (by decide) (by decide)

/-- Claim C6: running `index_buckets` on a bucket list that is itself the
retained output of a previous `index_buckets` run performs no further
merges: it returns the identity index list `[0, 1, ..., n-1]` and retains
its input unchanged. -/
theorem index_buckets_idempotent (cs : List Bucket) (ids0 : List Nat) (bs : List Bucket)
    (h : index_buckets cs = (ids0, bs)) :
    index_buckets bs = (List.range bs.length, bs) := by
  have hp := index_buckets_pairwise cs
  rw [h] at hp
  exact index_buckets_of_pairwise hp

/-- Witness for C6: the dedup output of three raw buckets (`[1]` merges
into `[1, 2]`) is a fixed point of `index_buckets`. -/
theorem index_buckets_idempotent_witness :
    index_buckets [Bucket.mk [] [1, 2], Bucket.mk [] [3]] =
      (List.range 2, [Bucket.mk [] [1, 2], Bucket.mk [] [3]]) :=
  index_buckets_idempotent [⟨[], [1]⟩, ⟨[], [1, 2]⟩, ⟨[], [3]⟩] [0, 0, 1]
    [⟨[], [1, 2]⟩, ⟨[], [3]⟩] (by decide)

/-- Claim C8: if a bucket reachable from the final level's index list
contains codepoints of differing width classes (is not
class-homogeneous), `indices_to_widths` fails — `int(None)` raises, the
run aborts, and no converted output list is produced. -/
theorem indices_to_widths_nonhomogeneous_aborts (t : Table) (i : Nat) (b : Bucket)
    (e1 e2 : Entry) (hwf : BucketWF b) (hi : i ∈ t.indices)
    (hb : t.indexed.get? i = some b) (h1 : e1 ∈ b.entry_set) (h2 : e2 ∈ b.entry_set)
    (hne : e1.2 ≠ e2.2) :
    t.indices_to_widths = none := by
  have hw : Bucket.width b = none := width_none_of_two (hwf e1 h1) (hwf e2 h2) hne
  have hfi : (t.indexed.get? i).bind Bucket.width = none := by
    rw [hb]
    exact hw
  exact mapOrAbort_none_of_mem hi hfi

/-- Witness for C8: a one-level table whose only bucket holds a
zero-width and a narrow codepoint aborts the conversion. -/
theorem indices_to_widths_nonhomogeneous_aborts_witness :
    Table.indices_to_widths ⟨0, 1, 8, [0], [⟨[(0, 0), (1, 1)], [0, 1]⟩]⟩ = none :=
  indices_to_widths_nonhomogeneous_aborts ⟨0, 1, 8, [0], [⟨[(0, 0), (1, 1)], [0, 1]⟩]⟩
    0 ⟨[(0, 0), (1, 1)], [0, 1]⟩ (0, 0) (1, 1) (by decide) (by decide) (by decide)
    (by decide) (by decide) (by decide)

/-- Claim C9: `Bucket.try_extend` never modifies its argument bucket:
`other`'s entry set and width sequence are identical before and after
the call whether or not the merge succeeds; only the receiver `self` is
ever replaced, so buckets handed forward as a later level's input groups
are read-only to the consumer. -/
theorem try_extend_argument_unchanged (s o : Bucket) :
    (Bucket.try_extend s o).2.2.entry_set = o.entry_set ∧
    (Bucket.try_extend s o).2.2.widths = o.widths ∧
    (Bucket.try_extend s o).2.2 = o := by
  rw [try_extend_eq]
  split_ifs <;> exact ⟨rfl, rfl, rfl⟩

/-- Claim C10: an empty width sequence is prefix-compatible with every
bucket, so `try_extend` involving an empty bucket always succeeds;
consequently, during dedup an empty raw bucket merges into the first
retained bucket (position 0) rather than being retained anew, and the
first retained bucket absorbs it without its width sequence changing. -/
theorem empty_bucket_merges_first :
    (∀ s o : Bucket, (s.widths = [] ∨ o.widths = []) → (Bucket.try_extend s o).1 = true) ∧
    (∀ (b0 : Bucket) (rest : List Bucket) (b : Bucket), b.widths = [] →
      extendFirst (b0 :: rest) b =
        some (0, (⟨entryUnion b0.entry_set b.entry_set, b0.widths⟩ : Bucket) :: rest)) := by
  have hTrue : ∀ s o : Bucket, (s.widths = [] ∨ o.widths = []) →
      (Bucket.try_extend s o).1 = true := by
    intro s o h
    rw [try_extend_true_iff]
    rcases h with h | h
    · exact Or.inl (by rw [h]; exact ⟨o.widths, rfl⟩)
    · exact Or.inr (by rw [h]; exact ⟨s.widths, rfl⟩)
  refine ⟨hTrue, ?_⟩
  intro b0 rest b hb
  have ht : (Bucket.try_extend b0 b).1 = true := hTrue b0 b (Or.inr hb)
  rw [extendFirst_cons_true ht]
  have hse := try_extend_success b0 b ht
  have hw : (Bucket.try_extend b0 b).2.1.widths = b0.widths := by
    rw [hse.2, hb]
    split_ifs with hl
    · exact (List.length_eq_zero.mp (Nat.le_zero.mp hl)).symm
    · rfl
  rw [bucket_eq_mk hse.1 hw]

/-- Witness for C10: the empty bucket merges with a nonempty one, and an
empty raw bucket is absorbed by the first retained bucket at index 0
with its width sequence `[1]` unchanged. -/
theorem empty_bucket_merges_first_witness :
    (Bucket.try_extend ⟨[], []⟩ ⟨[(3, 2)], [2]⟩).1 = true ∧
    extendFirst [⟨[(0, 1)], [1]⟩, ⟨[(9, 2)], [2]⟩] ⟨[], []⟩ =
      some (0, (⟨[(0, 1)], [1]⟩ : Bucket) :: [⟨[(9, 2)], [2]⟩]) := by
  obtain ⟨hA, hB⟩ := empty_bucket_merges_first
  refine ⟨hA ⟨[], []⟩ ⟨[(3, 2)], [2]⟩ (Or.inl rfl), ?_⟩
  exact hB ⟨[(0, 1)], [1]⟩ [⟨[(9, 2)], [2]⟩] ⟨[], []⟩ rfl

/-- Counterexample for C3: packing a list whose length is not a multiple
of `k = 8 / bit_width` does not produce a zero-padded final byte — the
inner loop reads past the end of the index list (`IndexError`) and no
byte array is produced at all. -/
theorem byte_array_partial_chunk_none :
    Table.byte_array ⟨0, 0, 2, [1], []⟩ = none := by decide

/-! ### Packing lemmas -/

theorem packByteLoop_zero (ot : Nat) (ind : List Nat) (i byte j : Nat) :
    packByteLoop ot ind i byte j 0 = some byte := rfl

theorem packByteLoop_succ (ot : Nat) (ind : List Nat) (i byte j rem : Nat) :
    packByteLoop ot ind i byte j (rem + 1) =
      match ind.get? (i + j) with
      | none => none
      | some v => packByteLoop ot ind i (byte ||| (v <<< (j * ot))) (j + 1) rem := rfl

theorem packByteLoop_some_bound (ot : Nat) (ind : List Nat) (i : Nat) :
    ∀ (rem j byte B : Nat), 0 < rem → packByteLoop ot ind i byte j rem = some B →
      i + j + rem ≤ ind.length := by
  intro rem
  induction rem with
  | zero => intro j byte B h; omega
  | succ r ih =>
    intro j byte B _ hp
    rw [packByteLoop_succ] at hp
    cases hg : ind.get? (i + j) with
    | none =>
      rw [hg] at hp
      exact Option.noConfusion hp
    | some v =>
      rw [hg] at hp
      have hjlt : i + j < ind.length := (List.get?_eq_some.mp hg).1
      cases r with
      | zero => omega
      | succ r' =>
        have := ih (j + 1) (byte ||| v <<< (j * ot)) B (Nat.succ_pos r') hp
        omega

theorem packByteLoop_some_of_le (ot : Nat) (ind : List Nat) (i : Nat) :
    ∀ (rem j byte : Nat), i + j + rem ≤ ind.length →
      ∃ B, packByteLoop ot ind i byte j rem = some B := by
  intro rem
  induction rem with
  | zero => intro j byte _; exact ⟨byte, rfl⟩
  | succ r ih =>
    intro j byte hle
    obtain ⟨v, hv⟩ : ∃ v, ind.get? (i + j) = some v :=
      ⟨_, List.get?_eq_get (by omega)⟩
    rw [packByteLoop_succ, hv]
    exact ih (j + 1) (byte ||| v <<< (j * ot)) (by omega)

theorem packByteLoop_none_of_lt (ot : Nat) (ind : List Nat) (i : Nat) :
    ∀ (rem j byte : Nat), 0 < rem → ind.length < i + j + rem →
      packByteLoop ot ind i byte j rem = none := by
  intro rem
  induction rem with
  | zero => intro j byte h; omega
  | succ r ih =>
    intro j byte _ hlt
    rw [packByteLoop_succ]
    cases hg : ind.get? (i + j) with
    | none => rfl
    | some v =>
      have hjlt : i + j < ind.length := (List.get?_eq_some.mp hg).1
      cases r with
      | zero => omega
      | succ r' => exact ih (j + 1) (byte ||| v <<< (j * ot)) (Nat.succ_pos r') (by omega)

theorem packBytesFrom_zero (ot ipb : Nat) (ind : List Nat) (i : Nat) :
    packBytesFrom ot ipb ind 0 i = some [] := rfl

theorem packBytesFrom_succ (ot ipb : Nat) (ind : List Nat) (cnt i : Nat) :
    packBytesFrom ot ipb ind (cnt + 1) i =
      match packByteLoop ot ind i 0 0 ipb with
      | none => none
      | some byte =>
        match packBytesFrom ot ipb ind cnt (i + ipb) with
        | none => none
        | some rest => some (byte :: rest) := rfl

theorem packBytesFrom_length (ot ipb : Nat) (ind : List Nat) :
    ∀ (cnt i : Nat) (l : List Nat), packBytesFrom ot ipb ind cnt i = some l →
      l.length = cnt := by
  intro cnt
  induction cnt with
  | zero =>
    intro i l h
    have hl : l = [] := (Option.some.inj h).symm
    rw [hl]
    rfl
  | succ c ih =>
    intro i l h
    rw [packBytesFrom_succ] at h
    cases hloop : packByteLoop ot ind i 0 0 ipb with
    | none =>
      rw [hloop] at h
      exact Option.noConfusion h
    | some byte =>
      rw [hloop] at h
      cases hrest : packBytesFrom ot ipb ind c (i + ipb) with
      | none =>
        rw [hrest] at h
        exact Option.noConfusion h
      | some rest =>
        rw [hrest] at h
        have hl : l = byte :: rest := (Option.some.inj h).symm
        rw [hl, List.length_cons, ih (i + ipb) rest hrest]

theorem packBytesFrom_some_of_le (ot ipb : Nat) (ind : List Nat) :
    ∀ (cnt i : Nat), i + cnt * ipb ≤ ind.length →
      ∃ l, packBytesFrom ot ipb ind cnt i = some l := by
  intro cnt
  induction cnt with
  | zero => intro i _; exact ⟨[], rfl⟩
  | succ c ih =>
    intro i hle
    have hstep : i + ipb ≤ ind.length := by
      have : (c + 1) * ipb = c * ipb + ipb := by ring
      omega
    obtain ⟨B, hB⟩ := packByteLoop_some_of_le ot ind i ipb 0 0 (by omega)
    obtain ⟨rest, hrest⟩ := ih (i + ipb) (by
      have : (c + 1) * ipb = c * ipb + ipb := by ring
      omega)
    rw [packBytesFrom_succ, hB, hrest]
    exact ⟨B :: rest, rfl⟩

theorem packBytesFrom_none_of_lt (ot ipb : Nat) (ind : List Nat) :
    ∀ (cnt i : Nat), 0 < cnt → 0 < ipb → ind.length < i + cnt * ipb →
      packBytesFrom ot ipb ind cnt i = none := by
  intro cnt
  induction cnt with
  | zero => intro i h; omega
  | succ c ih =>
    intro i _ hipb hlt
    rw [packBytesFrom_succ]
    cases hloop : packByteLoop ot ind i 0 0 ipb with
    | none => rfl
    | some byte =>
      have hbound : i + 0 + ipb ≤ ind.length :=
        packByteLoop_some_bound ot ind i ipb 0 0 byte hipb hloop
      cases c with
      | zero =>
        exfalso
        have : (1 : Nat) * ipb = ipb := by ring
        omega
      | succ c' =>
        have hrec : packBytesFrom ot ipb ind (c' + 1) (i + ipb) = none := by
          refine ih (i + ipb) (Nat.succ_pos c') hipb ?_
          have : (c' + 1 + 1) * ipb = (c' + 1) * ipb + ipb := by ring
          omega
        rw [hrec]

theorem packBytesFrom_get? (ot ipb : Nat) (ind : List Nat) :
    ∀ (cnt i : Nat) (l : List Nat), packBytesFrom ot ipb ind cnt i = some l →
      ∀ q, q < cnt →
        ∃ B, l.get? q = some B ∧ packByteLoop ot ind (i + ipb * q) 0 0 ipb = some B := by
  intro cnt
  induction cnt with
  | zero => intro i l _ q hq; omega
  | succ c ih =>
    intro i l h q hq
    rw [packBytesFrom_succ] at h
    cases hloop : packByteLoop ot ind i 0 0 ipb with
    | none =>
      rw [hloop] at h
      exact Option.noConfusion h
    | some byte =>
      rw [hloop] at h
      cases hrest : packBytesFrom ot ipb ind c (i + ipb) with
      | none =>
        rw [hrest] at h
        exact Option.noConfusion h
      | some rest =>
        rw [hrest] at h
        have hl : l = byte :: rest := (Option.some.inj h).symm
        subst hl
        cases q with
        | zero =>
          refine ⟨byte, rfl, ?_⟩
          have harith : i + ipb * 0 = i := by ring
          rw [harith]
          exact hloop
        | succ q' =>
          obtain ⟨B, hB1, hB2⟩ := ih (i + ipb) rest hrest q' (by omega)
          refine ⟨B, hB1, ?_⟩
          have harith : i + ipb * (q' + 1) = i + ipb + ipb * q' := by ring
          rw [harith]
          exact hB2

theorem byte_array_some_of_dvd (t : Table) (k : Nat) (hk : 8 / t.offset_type = k)
    (hpos : 0 < k) (hdvd : k ∣ t.indices.length) :
    ∃ bytes, t.byte_array = some bytes ∧ bytes.length = t.indices.length / k := by
  obtain ⟨m, hm⟩ := hdvd
  have hcnt : (t.indices.length + k - 1) / k = m := by
    have h1 : t.indices.length + k - 1 = (k - 1) + k * m := by omega
    rw [h1, Nat.add_mul_div_left _ _ hpos, Nat.div_eq_of_lt (by omega)]
    omega
  have hdiv : t.indices.length / k = m := by
    rw [hm]
    exact Nat.mul_div_cancel_left m hpos
  obtain ⟨bytes, hbytes⟩ := packBytesFrom_some_of_le t.offset_type k t.indices m 0
    (by rw [hm, Nat.mul_comm k m]; omega)
  refine ⟨bytes, ?_, ?_⟩
  · simp only [Table.byte_array, hk, hcnt]
    exact hbytes
  · rw [packBytesFrom_length t.offset_type k t.indices m 0 bytes hbytes, hdiv]

theorem byte_array_none_of_not_dvd (t : Table) (k : Nat) (hk : 8 / t.offset_type = k)
    (hpos : 0 < k) (hndvd : ¬ k ∣ t.indices.length) :
    t.byte_array = none := by
  simp only [Table.byte_array, hk]
  have hr : t.indices.length % k ≠ 0 := fun h => hndvd (Nat.dvd_of_mod_eq_zero h)
  have hmod := Nat.mod_lt t.indices.length hpos
  have hdm := Nat.div_add_mod t.indices.length k
  have hcnt : (t.indices.length + k - 1) / k = t.indices.length / k + 1 := by
    have h1 : t.indices.length + k - 1 =
        (t.indices.length % k + k - 1) + k * (t.indices.length / k) := by omega
    rw [h1, Nat.add_mul_div_left _ _ hpos]
    have h2 : (t.indices.length % k + k - 1) / k = 1 := by
      have h3 : t.indices.length % k + k - 1 = (t.indices.length % k - 1) + k * 1 := by
        omega
      rw [h3, Nat.add_mul_div_left _ _ hpos, Nat.div_eq_of_lt (by omega)]
    omega
  rw [hcnt]
  refine packBytesFrom_none_of_lt t.offset_type k t.indices _ 0 (Nat.succ_pos _) hpos ?_
  have : (t.indices.length / k + 1) * k = k * (t.indices.length / k) + k := by ring
  omega

/-- Claim C7: for every classified entry list (in particular the full
domain array) that contains a run of two adjacent entries of equal class,
the total size in bytes of all levels' packed byte arrays produced by
`make_tables` with the shipped `TABLE_CFGS` is strictly smaller than the
one-byte-per-value encoding of the `[0, 0x110000)` domain. -/
theorem cascade_total_size_compact (entries : List Entry) (tables : List Table)
    (hbuild : make_tables TABLE_CFGS entries = some tables)
    (hrun : ∃ p c c' w, entries.get? p = some (c, w) ∧ entries.get? (p + 1) = some (c', w)) :
    ∃ arrays : List (List Nat),
      mapOrAbort Table.byte_array tables = some arrays ∧
      (arrays.map List.length).sum < NUM_CODEPOINTS := by
  have hb : make_tablesAux [(13, 21, 8), (6, 13, 8), (0, 6, 2)] [entries] = some tables :=
    hbuild
  obtain ⟨t0, ts0, h0, hrest0, rfl⟩ := make_tablesAux_some_cons hb
  obtain ⟨t1, ts1, h1, hrest1, rfl⟩ := make_tablesAux_some_cons hrest0
  obtain ⟨t2, ts2, h2, hrest2, rfl⟩ := make_tablesAux_some_cons hrest1
  have hts2 : ts2 = [] := List.length_eq_zero.mp (make_tablesAux_length hrest2)
  subst hts2
  obtain ⟨-, -, hot0, hind0, hixd0, -⟩ := table_init_fields h0
  obtain ⟨-, -, hot1, hind1, hixd1, -⟩ := table_init_fields h1
  obtain ⟨-, -, hot2, hind2, hixd2, -⟩ := table_init_fields h2
  have hn0ind : t0.indices.length = 256 := by
    rw [hind0, index_buckets_fst_length, mkRawBuckets_length]
    norm_num
  have hn0 : t0.indexed.length ≤ 256 := by
    rw [hixd0]
    have := index_buckets_snd_le (mkRawBuckets [entries] 13 (21 - 13))
    rw [mkRawBuckets_length] at this
    simpa using this
  have hn1ind : t1.indices.length = t0.indexed.length * 128 := by
    rw [hind1, index_buckets_fst_length, mkRawBuckets_length, List.length_map]
    norm_num
  have hn1 : t1.indexed.length ≤ t0.indexed.length * 128 := by
    rw [hixd1]
    have := index_buckets_snd_le (mkRawBuckets (t0.indexed.map Bucket.entries) 6 (13 - 6))
    rw [mkRawBuckets_length, List.length_map] at this
    simpa using this
  have hn2ind : t2.indices.length = t1.indexed.length * 64 := by
    rw [hind2, index_buckets_fst_length, mkRawBuckets_length, List.length_map]
    norm_num
  obtain ⟨a0, ha0, hl0⟩ :=
    byte_array_some_of_dvd t0 1 (by rw [hot0]) (by omega) (one_dvd _)
  obtain ⟨a1, ha1, hl1⟩ :=
    byte_array_some_of_dvd t1 1 (by rw [hot1]) (by omega) (one_dvd _)
  obtain ⟨a2, ha2, hl2⟩ :=
    byte_array_some_of_dvd t2 4 (by rw [hot2]) (by omega)
      ⟨t1.indexed.length * 16, by rw [hn2ind]; ring⟩
  refine ⟨[a0, a1, a2], ?_, ?_⟩
  · simp only [mapOrAbort, ha0, ha1, ha2]
  · simp only [List.map_cons, List.map_nil, List.sum_cons, List.sum_nil]
    have e0 : a0.length = 256 := by
      rw [hl0, hn0ind]
    have e1 : a1.length = t0.indexed.length * 128 := by
      rw [hl1, hn1ind]
      omega
    have e2 : a2.length = t1.indexed.length * 16 := by
      rw [hl2, hn2ind]
      omega
    have b1 : t0.indexed.length * 128 ≤ 32768 := by
      have := Nat.mul_le_mul_right 128 hn0
      omega
    have b2 : t1.indexed.length * 16 ≤ 524288 := by
      have hc : t1.indexed.length ≤ 32768 := by omega
      have := Nat.mul_le_mul_right 16 hc
      omega
    have hN : NUM_CODEPOINTS = 1114112 := rfl
    omega

set_option maxRecDepth 100000 in
/-- Witness for C7: the two-entry run `[(0, 0), (1, 0)]` builds a cascade
of 256 + 128 + 16 = 400 bytes, far below the 1114112-byte flat encoding. -/
theorem cascade_total_size_compact_witness :
    ∃ arrays : List (List Nat),
      mapOrAbort Table.byte_array
          ((make_tables TABLE_CFGS [(0, 0), (1, 0)]).getD []) = some arrays ∧
      (arrays.map List.length).sum < NUM_CODEPOINTS :=
  cascade_total_size_compact [(0, 0), (1, 0)]
    ((make_tables TABLE_CFGS [(0, 0), (1, 0)]).getD [])
    (by decide) ⟨0, 0, 1, 0, by decide, by decide⟩

/-! ### Per-width byte extraction -/

theorem packByteLoop_one (ot : Nat) (ind : List Nat) (i v0 : Nat)
    (h0 : ind.get? i = some v0) :
    packByteLoop ot ind i 0 0 1 = some (0 ||| v0 <<< (0 * ot)) := by
  have e1 : packByteLoop ot ind i 0 0 1 =
      match ind.get? i with
      | none => none
      | some v => packByteLoop ot ind i (0 ||| v <<< (0 * ot)) 1 0 := rfl
  rw [e1, h0]
  rfl

theorem packByteLoop_two (ot : Nat) (ind : List Nat) (i v0 v1 : Nat)
    (h0 : ind.get? i = some v0) (h1 : ind.get? (i + 1) = some v1) :
    packByteLoop ot ind i 0 0 2 =
      some ((0 ||| v0 <<< (0 * ot)) ||| v1 <<< (1 * ot)) := by
  have e1 : packByteLoop ot ind i 0 0 2 =
      match ind.get? i with
      | none => none
      | some v => packByteLoop ot ind i (0 ||| v <<< (0 * ot)) 1 1 := rfl
  rw [e1, h0]
  show packByteLoop ot ind i (0 ||| v0 <<< (0 * ot)) 1 1 = _
  have e2 : packByteLoop ot ind i (0 ||| v0 <<< (0 * ot)) 1 1 =
      match ind.get? (i + 1) with
      | none => none
      | some v =>
        packByteLoop ot ind i ((0 ||| v0 <<< (0 * ot)) ||| v <<< (1 * ot)) 2 0 := rfl
  rw [e2, h1]
  rfl

theorem packByteLoop_four (ot : Nat) (ind : List Nat) (i v0 v1 v2 v3 : Nat)
    (h0 : ind.get? i = some v0) (h1 : ind.get? (i + 1) = some v1)
    (h2 : ind.get? (i + 2) = some v2) (h3 : ind.get? (i + 3) = some v3) :
    packByteLoop ot ind i 0 0 4 =
      some ((((0 ||| v0 <<< (0 * ot)) ||| v1 <<< (1 * ot)) ||| v2 <<< (2 * ot)) |||
        v3 <<< (3 * ot)) := by
  have e1 : packByteLoop ot ind i 0 0 4 =
      match ind.get? i with
      | none => none
      | some v => packByteLoop ot ind i (0 ||| v <<< (0 * ot)) 1 3 := rfl
  rw [e1, h0]
  show packByteLoop ot ind i (0 ||| v0 <<< (0 * ot)) 1 3 = _
  have e2 : packByteLoop ot ind i (0 ||| v0 <<< (0 * ot)) 1 3 =
      match ind.get? (i + 1) with
      | none => none
      | some v =>
        packByteLoop ot ind i ((0 ||| v0 <<< (0 * ot)) ||| v <<< (1 * ot)) 2 2 := rfl
  rw [e2, h1]
  show packByteLoop ot ind i ((0 ||| v0 <<< (0 * ot)) ||| v1 <<< (1 * ot)) 2 2 = _
  have e3 : packByteLoop ot ind i ((0 ||| v0 <<< (0 * ot)) ||| v1 <<< (1 * ot)) 2 2 =
      match ind.get? (i + 2) with
      | none => none
      | some v =>
        packByteLoop ot ind i
          (((0 ||| v0 <<< (0 * ot)) ||| v1 <<< (1 * ot)) ||| v <<< (2 * ot)) 3 1 := rfl
  rw [e3, h2]
  show packByteLoop ot ind i
      (((0 ||| v0 <<< (0 * ot)) ||| v1 <<< (1 * ot)) ||| v2 <<< (2 * ot)) 3 1 = _
  have e4 : packByteLoop ot ind i
      (((0 ||| v0 <<< (0 * ot)) ||| v1 <<< (1 * ot)) ||| v2 <<< (2 * ot)) 3 1 =
      match ind.get? (i + 3) with
      | none => none
      | some v =>
        packByteLoop ot ind i
          ((((0 ||| v0 <<< (0 * ot)) ||| v1 <<< (1 * ot)) ||| v2 <<< (2 * ot)) |||
            v <<< (3 * ot)) 4 0 := rfl
  rw [e4, h3]
  rfl

set_option maxRecDepth 40000 in
theorem extract_u2 : ∀ m, m < 4 → ∀ v0, v0 < 4 → ∀ v1, v1 < 4 → ∀ v2, v2 < 4 →
    ∀ v3, v3 < 4 →
    (((((0 ||| v0 <<< (0 * 2)) ||| v1 <<< (1 * 2)) ||| v2 <<< (2 * 2)) |||
        v3 <<< (3 * 2)) >>> (2 * m)) &&& (2 ^ 2 - 1) = [v0, v1, v2, v3].getD m 0 := by
  decide

set_option maxRecDepth 40000 in
theorem extract_u4 : ∀ m, m < 2 → ∀ v0, v0 < 16 → ∀ v1, v1 < 16 →
    (((0 ||| v0 <<< (0 * 4)) ||| v1 <<< (1 * 4)) >>> (4 * m)) &&& (2 ^ 4 - 1) =
      [v0, v1].getD m 0 := by
  decide

set_option maxRecDepth 40000 in
theorem extract_u8 : ∀ v0, v0 < 256 →
    ((0 ||| v0 <<< (0 * 8)) >>> (8 * 0)) &&& (2 ^ 8 - 1) = v0 := by
  decide

/-- Claim C3 (amended): for `bit_width ∈ {2, 4, 8}` and `k = 8 / bit_width`,
when `k` divides the index count `byte_array` packs `k` indices per byte,
least-significant group first, produces exactly `n / k` bytes, and the
paired decode formula `(byte[i/k] >> (bit_width * (i mod k))) &
(2^bit_width - 1)` recovers every index; when `k` does not divide `n`
the inner loop reads past the end of the list (`IndexError`) and no byte
array is produced — the final partial byte is never zero-padded. -/
theorem byte_array_pack_roundtrip (t : Table) (ot : Nat)
    (hot : ot = 2 ∨ ot = 4 ∨ ot = 8) (hty : t.offset_type = ot)
    (hv : ∀ v ∈ t.indices, v < 2 ^ ot) :
    ((8 / ot) ∣ t.indices.length →
      ∃ bytes, t.byte_array = some bytes ∧
        bytes.length = t.indices.length / (8 / ot) ∧
        ∀ p v, t.indices.get? p = some v →
          ∃ B, bytes.get? (p / (8 / ot)) = some B ∧
            (B >>> (ot * (p % (8 / ot)))) &&& (2 ^ ot - 1) = v) ∧
    (¬ (8 / ot) ∣ t.indices.length → t.byte_array = none) := by
  have hkpos : 0 < 8 / ot := by rcases hot with rfl | rfl | rfl <;> decide
  constructor
  · intro hdvd
    obtain ⟨bytes, hb, hlen⟩ :=
      byte_array_some_of_dvd t (8 / ot) (by rw [hty]) hkpos hdvd
    refine ⟨bytes, hb, hlen, ?_⟩
    intro p v hpv
    have hp_lt : p < t.indices.length := (List.get?_eq_some.mp hpv).1
    have hBF : packBytesFrom t.offset_type (8 / t.offset_type) t.indices
        ((t.indices.length + 8 / t.offset_type - 1) / (8 / t.offset_type)) 0 =
        some bytes := by
      simp only [Table.byte_array] at hb
      exact hb
    rw [hty] at hBF
    rcases hot with rfl | rfl | rfl
    · have hk : (8 : Nat) / 2 = 4 := rfl
      rw [hk] at hBF hdvd ⊢
      have hq : p / 4 < (t.indices.length + 4 - 1) / 4 := by omega
      obtain ⟨B, hB1, hB2⟩ := packBytesFrom_get? 2 4 t.indices _ 0 bytes hBF (p / 4) hq
      rw [Nat.zero_add] at hB2
      have hbase : 4 * (p / 4) + 4 ≤ t.indices.length := by omega
      obtain ⟨v0, hv0⟩ : ∃ w, t.indices.get? (4 * (p / 4)) = some w :=
        ⟨_, List.get?_eq_get (by omega)⟩
      obtain ⟨v1, hv1⟩ : ∃ w, t.indices.get? (4 * (p / 4) + 1) = some w :=
        ⟨_, List.get?_eq_get (by omega)⟩
      obtain ⟨v2, hv2⟩ : ∃ w, t.indices.get? (4 * (p / 4) + 2) = some w :=
        ⟨_, List.get?_eq_get (by omega)⟩
      obtain ⟨v3, hv3⟩ : ∃ w, t.indices.get? (4 * (p / 4) + 3) = some w :=
        ⟨_, List.get?_eq_get (by omega)⟩
      have hE := packByteLoop_four 2 t.indices (4 * (p / 4)) v0 v1 v2 v3 hv0 hv1 hv2 hv3
      rw [hE] at hB2
      have hBE : B = (((0 ||| v0 <<< (0 * 2)) ||| v1 <<< (1 * 2)) ||| v2 <<< (2 * 2)) |||
          v3 <<< (3 * 2) := (Option.some.inj hB2).symm
      refine ⟨B, hB1, ?_⟩
      rw [hBE]
      have hb0 : v0 < 4 := by have h := hv v0 (List.get?_mem hv0); norm_num at h; exact h
      have hb1 : v1 < 4 := by have h := hv v1 (List.get?_mem hv1); norm_num at h; exact h
      have hb2 : v2 < 4 := by have h := hv v2 (List.get?_mem hv2); norm_num at h; exact h
      have hb3 : v3 < 4 := by have h := hv v3 (List.get?_mem hv3); norm_num at h; exact h
      have hext := extract_u2 (p % 4) (by omega) v0 hb0 v1 hb1 v2 hb2 v3 hb3
      rw [hext]
      have hpeq : p = 4 * (p / 4) + p % 4 := by omega
      rw [hpeq] at hpv
      have hm4 : p % 4 = 0 ∨ p % 4 = 1 ∨ p % 4 = 2 ∨ p % 4 = 3 := by omega
      rcases hm4 with h | h | h | h <;> rw [h] at hpv ⊢
      · simp only [Nat.add_zero] at hpv
        exact Option.some.inj (hv0.symm.trans hpv)
      · exact Option.some.inj (hv1.symm.trans hpv)
      · exact Option.some.inj (hv2.symm.trans hpv)
      · exact Option.some.inj (hv3.symm.trans hpv)
    · have hk : (8 : Nat) / 4 = 2 := rfl
      rw [hk] at hBF hdvd ⊢
      have hq : p / 2 < (t.indices.length + 2 - 1) / 2 := by omega
      obtain ⟨B, hB1, hB2⟩ := packBytesFrom_get? 4 2 t.indices _ 0 bytes hBF (p / 2) hq
      rw [Nat.zero_add] at hB2
      have hbase : 2 * (p / 2) + 2 ≤ t.indices.length := by omega
      obtain ⟨v0, hv0⟩ : ∃ w, t.indices.get? (2 * (p / 2)) = some w :=
        ⟨_, List.get?_eq_get (by omega)⟩
      obtain ⟨v1, hv1⟩ : ∃ w, t.indices.get? (2 * (p / 2) + 1) = some w :=
        ⟨_, List.get?_eq_get (by omega)⟩
      have hE := packByteLoop_two 4 t.indices (2 * (p / 2)) v0 v1 hv0 hv1
      rw [hE] at hB2
      have hBE : B = (0 ||| v0 <<< (0 * 4)) ||| v1 <<< (1 * 4) :=
        (Option.some.inj hB2).symm
      refine ⟨B, hB1, ?_⟩
      rw [hBE]
      have hb0 : v0 < 16 := by have h := hv v0 (List.get?_mem hv0); norm_num at h; exact h
      have hb1 : v1 < 16 := by have h := hv v1 (List.get?_mem hv1); norm_num at h; exact h
      have hext := extract_u4 (p % 2) (by omega) v0 hb0 v1 hb1
      rw [hext]
      have hpeq : p = 2 * (p / 2) + p % 2 := by omega
      rw [hpeq] at hpv
      have hm2 : p % 2 = 0 ∨ p % 2 = 1 := by omega
      rcases hm2 with h | h <;> rw [h] at hpv ⊢
      · simp only [Nat.add_zero] at hpv
        exact Option.some.inj (hv0.symm.trans hpv)
      · exact Option.some.inj (hv1.symm.trans hpv)
    · have hk : (8 : Nat) / 8 = 1 := rfl
      rw [hk] at hBF hdvd ⊢
      have hq : p / 1 < (t.indices.length + 1 - 1) / 1 := by omega
      obtain ⟨B, hB1, hB2⟩ := packBytesFrom_get? 8 1 t.indices _ 0 bytes hBF (p / 1) hq
      have h1p : 0 + 1 * (p / 1) = p := by omega
      rw [h1p] at hB2
      have hE := packByteLoop_one 8 t.indices p v hpv
      rw [hE] at hB2
      have hBE : B = 0 ||| v <<< (0 * 8) := (Option.some.inj hB2).symm
      refine ⟨B, hB1, ?_⟩
      rw [hBE, Nat.mod_one]
      have hb0 : v < 256 := by have h := hv v (List.get?_mem hpv); norm_num at h; exact h
      exact extract_u8 v hb0
  · intro hndvd
    rcases hot with rfl | rfl | rfl
    · exact byte_array_none_of_not_dvd t (8 / 2) (by rw [hty]) (by decide) hndvd
    · exact byte_array_none_of_not_dvd t (8 / 4) (by rw [hty]) (by decide) hndvd
    · rw [show (8 : Nat) / 8 = 1 from rfl] at hndvd
      exact absurd (one_dvd _) hndvd

/-- Witness for C3 (amended): four 2-bit indices `[1, 2, 3, 0]` pack into
one byte that the decode formula unpacks index by index. -/
theorem byte_array_pack_roundtrip_witness :
    ∃ bytes, Table.byte_array ⟨0, 0, 2, [1, 2, 3, 0], []⟩ = some bytes ∧
      bytes.length = ([1, 2, 3, 0] : List Nat).length / (8 / 2) ∧
      ∀ p v, ([1, 2, 3, 0] : List Nat).get? p = some v →
        ∃ B, bytes.get? (p / (8 / 2)) = some B ∧
          (B >>> (2 * (p % (8 / 2)))) &&& (2 ^ 2 - 1) = v :=
  (byte_array_pack_roundtrip ⟨0, 0, 2, [1, 2, 3, 0], []⟩ 2 (Or.inl rfl) rfl
    (by decide)).1 (by decide)
